import Mathlib

/-!
Verification of the entropy-guided compression planning engine of
trash-compactor against its natural-language specification.

The Python sources are shallowly embedded:

* filesystem paths are lists of name components (`FsPath`);
* Python floats are modelled as rationals (all arithmetic the planner
  performs on them is field arithmetic, `min`/`max` and comparisons);
* machine-level I/O (directory listing, file reads, the zlib probe, CPU
  topology) is passed in as explicit data or function parameters;
* randomized parts (weighted reservoir selection, `random.shuffle`) are
  modelled by taking the resulting ordered selection as an input, as the
  spec itself declares entropy sampling non-reproducible.

Functions keep the names of their Python counterparts (camelCased).
-/

namespace TrashCompactor

/-- Filesystem paths, modelled as the list of path components from the
filesystem root.  `Path.parent` of the Python sources is `List.dropLast`. -/
abbrev FsPath := List String

/-- Embedding of `pathlib`: directory `d` is `p` itself or an ancestor of `p`
exactly when the component list of `d` is a prefix of that of `p`. -/
def isUnder (d p : FsPath) : Bool := d.isPrefixOf p

/-- Embedding of `skip_logic._relative_to_base`: `path.relative_to(base)`
when `path` is under `base`, the unchanged path otherwise. -/
def relativeToBase (p base : FsPath) : FsPath :=
  if base.isPrefixOf p then p.drop base.length else p

/-- Embedding of `skip_logic.py` / `compression_planner.py`
`_ancestors_including_base`: the chain from `path` up to (and including)
`base_dir`, stopping early at the filesystem root (where `parent == current`,
i.e. the empty component list). -/
def ancestorsGo (base : FsPath) : ℕ → FsPath → List FsPath
  | 0, p => [p]
  | fuel + 1, p =>
    if p = base then [p]
    else if p = [] then [p]
    else p :: ancestorsGo base fuel p.dropLast

/-- Wrapper fixing the fuel of `ancestorsGo` to the length of the starting
path, which bounds the number of `parent` steps the Python `while` loop can
take; with that much fuel the zero-fuel clause is only ever reached at the
filesystem root, where it agrees with the loop's `parent == current`
stop. -/
def ancestorsIncludingBase (p base : FsPath) : List FsPath :=
  ancestorsGo base p.length p

/-- Embedding of `stats.DirectorySkipRecord`. -/
structure DirectorySkipRecord where
  path : FsPath
  relativePath : FsPath
  reason : String
  category : String
  averageEntropy : Option ℚ := none
  estimatedSavings : Option ℚ := none
  sampledFiles : ℕ := 0
  sampledBytes : ℕ := 0
deriving Repr, DecidableEq

/-- Embedding of `stats.EntropySampleRecord`. -/
structure EntropySampleRecord where
  path : FsPath
  relativePath : FsPath
  averageEntropy : ℚ
  estimatedSavings : ℚ
  sampledFiles : ℕ
  sampledBytes : ℕ
  totalBytes : ℕ
deriving Repr, DecidableEq

/-- Embedding of `stats.FileSkipRecord`. -/
structure FileSkipRecord where
  path : FsPath
  relativePath : FsPath
  reason : String
  category : String
deriving Repr, DecidableEq

/-- Embedding of `stats.CompressionStats` (the fields the planning core
touches; the purely presentational fields of the Python dataclass that no
planner code reads or writes are omitted). -/
structure CompressionStats where
  compressedFiles : ℕ := 0
  skippedFiles : ℕ := 0
  alreadyCompressedFiles : ℕ := 0
  totalOriginalSize : ℕ := 0
  totalCompressedSize : ℕ := 0
  totalSkippedSize : ℕ := 0
  errors : List String := []
  directorySkips : List DirectorySkipRecord := []
  entropySamples : List EntropySampleRecord := []
  fileSkips : List FileSkipRecord := []
  baseDir : Option FsPath := none
  entropyDirectoriesSampled : ℕ := 0
  entropyDirectoriesBelowThreshold : ℕ := 0
  skipExtensionFiles : ℕ := 0
  skipLowSavingsFiles : ℕ := 0
  minSavingsPercent : ℚ := 0
deriving Repr, DecidableEq

/-- Python truthiness of an `Optional[str]`: `None` and the empty string are
falsy. -/
def truthyStr (s : Option String) : Bool := s.getD "" ≠ ""

/-- Embedding of Python `needle in reason.lower()` (substring test on the
lower-cased string). -/
def containsLowered (reason needle : String) : Bool :=
  decide (needle.toList <:+: reason.toLower.toList)

/-- Embedding of `CompressionStats._classify_skip`. -/
def classifySkip (reason : String) (alreadyCompressed : Bool)
    (category : Option String) : String :=
  if alreadyCompressed then "already_compressed"
  else if truthyStr category then category.getD ""
  else if containsLowered reason "extension" then "extension"
  else if containsLowered reason "high entropy" || containsLowered reason "savings" then
    "high_entropy"
  else "generic"

/-- Embedding of `CompressionStats.record_file_skip` (the `resolve()`
fallback for paths outside the base directory is the identity here, since
symbolic links are outside the model). -/
def recordFileSkip (stats : CompressionStats) (filePath : FsPath) (reason : String)
    (sizeHint originalSize : ℕ) (alreadyCompressed : Bool := false)
    (category : Option String := none) : CompressionStats :=
  let resolvedHint := if 0 < sizeHint then sizeHint else originalSize
  let stats := { stats with skippedFiles := stats.skippedFiles + 1 }
  let stats := if 0 < resolvedHint then
      { stats with totalCompressedSize := stats.totalCompressedSize + resolvedHint }
    else stats
  let stats := if 0 < originalSize then
      { stats with totalSkippedSize := stats.totalSkippedSize + originalSize }
    else stats
  let stats := if alreadyCompressed then
      { stats with alreadyCompressedFiles := stats.alreadyCompressedFiles + 1 }
    else stats
  let resolvedCategory := classifySkip reason alreadyCompressed category
  let stats := if resolvedCategory = "extension" then
      { stats with skipExtensionFiles := stats.skipExtensionFiles + 1 }
    else if resolvedCategory = "high_entropy" then
      { stats with skipLowSavingsFiles := stats.skipLowSavingsFiles + 1 }
    else stats
  let relative := match stats.baseDir with
    | none => filePath
    | some b => relativeToBase filePath b
  { stats with fileSkips := stats.fileSkips ++
      [{ path := filePath, relativePath := relative, reason := reason,
         category := resolvedCategory }] }

/-- Embedding of `skip_logic.append_directory_skip_record` (the logging
calls have no observable effect on the run). -/
def appendDirectorySkipRecord (stats : CompressionStats)
    (record : DirectorySkipRecord) : CompressionStats :=
  { stats with directorySkips := stats.directorySkips ++ [record] }

/-- Modelled from the spec: `savings_from_entropy` lives in `src/config.py`,
which is not among the provided sources.  Sections 4.3 and 9 of the spec fix
its contract — a monotonically non-increasing map from average entropy to a
savings percentage in [0, 90] — and suggest linear interpolation from
8 bits/byte mapping to 0% up to 0 bits/byte mapping to the maximum.  The
embedding uses that linear map clamped to the required range. -/
def savings_from_entropy (averageEntropy : ℚ) : ℚ :=
  max 0 (min 90 (90 * (8 - averageEntropy) / 8))

/-- Constant `MAX_SAMPLE_WINDOWS` of `compression/entropy.py`. -/
def MAX_SAMPLE_WINDOWS : ℕ := 3

/-- Constant `TARGET_WINDOW_SIZE` of `compression/entropy.py`. -/
def TARGET_WINDOW_SIZE : ℕ := 16 * 1024

/-- Embedding of `entropy._compression_probe_entropy`.  The zlib level-2
compressor is passed in as the function `compressLen`, giving the length of
the compressed form of a byte string; on real zlib output this is always
positive, and the Python fallback to Shannon entropy sits behind an
exception handler that the zlib call cannot trigger on bytes input, so it is
not part of the model. -/
def compressionProbeEntropy (compressLen : List ℕ → ℕ) (sample : List ℕ) : ℚ :=
  if sample = [] then 0
  else
    let compressedLength := if compressLen sample = 0 then 1 else compressLen sample
    let ratio : ℚ := (compressedLength : ℚ) / (sample.length : ℚ)
    max 0 (min 8 (ratio * 8))

/-- Embedding of `entropy._derive_window_size`. -/
def deriveWindowSize (byteBudget : ℕ) : ℕ :=
  if byteBudget = 0 then 0
  else
    let window := min TARGET_WINDOW_SIZE byteBudget
    let window :=
      if byteBudget < window * MAX_SAMPLE_WINDOWS ∧ MAX_SAMPLE_WINDOWS ≤ byteBudget then
        byteBudget / MAX_SAMPLE_WINDOWS
      else window
    max 1 window

/-- Embedding of the clamp-and-dedup loop at the end of
`entropy._plan_sample_windows` (the `seen` set and the output list receive
exactly the same appends, so one list serves as both). -/
def dedupClampWindows (ws : List (ℕ × ℕ)) (fileSize : ℕ) : List (ℕ × ℕ) :=
  ws.foldl (fun acc w =>
    let clampedOffset := min w.1 (fileSize - w.2)
    let clampedLength := min w.2 (fileSize - clampedOffset)
    if clampedLength = 0 then acc
    else if acc.contains (clampedOffset, clampedLength) then acc
    else acc ++ [(clampedOffset, clampedLength)]) []

/-- Embedding of `entropy._plan_sample_windows`. -/
def planSampleWindows (fileSize windowSize : ℕ) : List (ℕ × ℕ) :=
  if fileSize = 0 ∨ windowSize = 0 then []
  else if fileSize ≤ windowSize then [(0, fileSize)]
  else
    let windows :=
      if fileSize ≤ 2 * windowSize then
        [(0, windowSize), (fileSize - windowSize, windowSize)]
      else
        [(0, windowSize), (fileSize / 2 - windowSize / 2, windowSize),
         (fileSize - windowSize, windowSize)]
    dedupClampWindows (windows.take MAX_SAMPLE_WINDOWS) fileSize

/-- Embedding of `entropy._sample_file_entropy`.  A file is its byte
content (`stat` size is its length; `stream.read` at a window is
`drop`/`take`); unreadable files — which the Python code maps to a
`(0.0, 0)` contribution — are outside the model.  Besides the two
accumulators of the source (`weighted_entropy`, `sampled_bytes`) the fold
carries a ghost trace recording each sampled window's byte chunk, used by
the theorems to talk about the set of sampled windows; the source's `break`
on an exhausted budget is the fold skipping every later window (the
exhaustion condition is monotone).  `sampleWindowStep` is one iteration of
that window loop. -/
def sampleWindowStep (compressLen : List ℕ → ℕ) (data : List ℕ)
    (byteBudget : ℕ) (acc : ℚ × ℕ × List (List ℕ)) (w : ℕ × ℕ) :
    ℚ × ℕ × List (List ℕ) :=
  if byteBudget ≤ acc.2.1 then acc
  else
    let readLen := min w.2 (byteBudget - acc.2.1)
    let chunk := (data.drop w.1).take readLen
    if chunk.length = 0 then acc
    else
      (acc.1 + compressionProbeEntropy compressLen chunk * chunk.length,
       acc.2.1 + chunk.length, acc.2.2 ++ [chunk])

/-- Embedding of `entropy._sample_file_entropy` assembled from the planned
windows and the per-window step. -/
def sampleFileEntropy (compressLen : List ℕ → ℕ) (data : List ℕ)
    (byteBudget : ℕ) : ℚ × ℕ × List (List ℕ) :=
  if byteBudget = 0 ∨ data.length = 0 then (0, 0, [])
  else
    let windowSize := deriveWindowSize byteBudget
    let windows := planSampleWindows data.length windowSize
    windows.foldl (sampleWindowStep compressLen data byteBudget) (0, 0, [])

/-- Embedding of the accumulation loop of `entropy.sample_directory_entropy`
over the selected files.  The randomized weighted reservoir selection and
shuffle (`_reservoir_sample_files`, `random.shuffle`, and the retry with
`skip_root_files` cleared) are modelled by taking the resulting ordered list
of selected files — each given by its byte content — as the input `files`.
The fold carries the source's three accumulators plus the concatenated
ghost window trace. -/
def sampleDirStep (compressLen : List ℕ → ℕ) (chunkSize maxBytes : ℕ)
    (acc : ℚ × ℕ × ℕ × List (List ℕ)) (data : List ℕ) :
    ℚ × ℕ × ℕ × List (List ℕ) :=
  if maxBytes ≤ acc.2.2.1 then acc
  else
    let perFileBudget := min chunkSize (maxBytes - acc.2.2.1)
    if perFileBudget = 0 then acc
    else
      let r := sampleFileEntropy compressLen data perFileBudget
      if r.2.1 = 0 then acc
      else (acc.1 + r.1, acc.2.1 + 1, acc.2.2.1 + r.2.1, acc.2.2.2 ++ r.2.2)

/-- Accumulation of `sample_directory_entropy` as a fold of `sampleDirStep`
over the selected files. -/
def sampleDirectoryRun (compressLen : List ℕ → ℕ) (files : List (List ℕ))
    (maxFiles chunkSize maxBytes : ℕ) : ℚ × ℕ × ℕ × List (List ℕ) :=
  if maxFiles = 0 ∨ maxBytes = 0 then (0, 0, 0, [])
  else files.foldl (sampleDirStep compressLen chunkSize maxBytes) (0, 0, 0, [])

/-- Embedding of `entropy.sample_directory_entropy`: the returned triple
(optional average entropy, sampled file count, sampled byte count).  A zero
sampled-byte total — which covers the `max_files <= 0 or max_bytes <= 0`
early return as well — yields no average. -/
def sampleDirectoryEntropy (compressLen : List ℕ → ℕ) (files : List (List ℕ))
    (maxFiles : ℕ := 50) (chunkSize : ℕ := 65536)
    (maxBytes : ℕ := 4 * 1024 * 1024) : Option ℚ × ℕ × ℕ :=
  let r := sampleDirectoryRun compressLen files maxFiles chunkSize maxBytes
  if r.2.2.1 = 0 then (none, r.2.1, r.2.2.1)
  else (some (r.1 / (r.2.2.1 : ℚ)), r.2.1, r.2.2.1)

/-- Ghost accessor: the byte chunks of all windows sampled during
`sample_directory_entropy`. -/
def sampledWindowChunks (compressLen : List ℕ → ℕ) (files : List (List ℕ))
    (maxFiles chunkSize maxBytes : ℕ) : List (List ℕ) :=
  (sampleDirectoryRun compressLen files maxFiles chunkSize maxBytes).2.2.2

/-- Window-entropy formula as the spec states it (compare with
`compressionProbeEntropy`, which the source computes):
clamp(8 * compressedLen / sampleLen, 0, 8) bits/byte. -/
def specWindowEntropy (compressLen : List ℕ → ℕ) (c : List ℕ) : ℚ :=
  max 0 (min 8 (8 * (compressLen c : ℚ) / (c.length : ℚ)))

/-- Embedding of the reason f-string built by
`skip_logic.evaluate_entropy_directory` (number formatting is `toString` on
the exact rational instead of the Python `:.1f` rendering). -/
def highEntropyReason (estimatedSavings : ℚ) : String :=
  "High entropy (est. " ++ toString estimatedSavings ++ "% savings)"

/-- Embedding of `skip_logic.evaluate_entropy_directory`.  Its call to
`sample_directory_entropy(directory)` — the only I/O it performs — is passed
in as the triple `sample`.  Note the Python function returns a single
`Optional[DirectorySkipRecord]`, not a pair. -/
def evaluateEntropyDirectory (sample : Option ℚ × ℕ × ℕ)
    (directory baseDir : FsPath) (minSavingsPercent : ℚ) :
    Option DirectorySkipRecord :=
  if directory = baseDir then none
  else
    match sample with
    | (none, _, _) => none
    | (some averageEntropy, sampledFiles, sampledBytes) =>
      if sampledFiles = 0 ∨ sampledBytes < 1024 then none
      else
        let estimatedSavings := savings_from_entropy averageEntropy
        if minSavingsPercent ≤ estimatedSavings then none
        else
          some { path := directory,
                 relativePath := relativeToBase directory baseDir,
                 reason := highEntropyReason estimatedSavings,
                 category := "high_entropy",
                 averageEntropy := some averageEntropy,
                 estimatedSavings := some estimatedSavings,
                 sampledFiles := sampledFiles,
                 sampledBytes := sampledBytes }

/-- Embedding of the Python statement
`skip_record, sample_record = evaluate_entropy_directory(...)` in
`compression_planner.evaluate_directories_parallel`: the right-hand side has
type `Optional[DirectorySkipRecord]`, and neither `None` nor a
(non-iterable) dataclass instance can be unpacked into two names, so the
assignment raises `TypeError` for every value the function can return. -/
def unpackSkipSamplePair (result : Option DirectorySkipRecord) :
    Except String (Option DirectorySkipRecord × Option EntropySampleRecord) :=
  match result with
  | none => .error "TypeError: cannot unpack non-iterable NoneType object"
  | some _ => .error "TypeError: cannot unpack non-iterable DirectorySkipRecord object"

/-- Embedding of `compression_planner.evaluate_directories_parallel`.  The
per-directory work `evaluate_entropy_directory(directory, ...)` — including
any exception it raises, taxonomy item (c) of the spec — is the parameter
`evalDir`; `entropy_worker_count()` (from the absent `src/workers.py`) is
the parameter `workerCount`.  The thread-pool branch gathers results in
completion order, which the claims never observe; the fold uses submission
order.  The skip map (a Python dict keyed by directory) is an association
list to which fresh keys are prepended. -/
def evaluateDirectoriesParallel
    (evalDir : FsPath → Except String (Option DirectorySkipRecord))
    (workerCount : ℕ) (directories : List FsPath) :
    Except String
      (List (FsPath × DirectorySkipRecord) × List EntropySampleRecord) :=
  if directories = [] then .ok ([], [])
  else if workerCount ≤ 1 ∨ directories.length = 1 then
    directories.foldlM (fun acc directory => do
      let result ← evalDir directory
      let (skipRecord, sampleRecord) ← unpackSkipSamplePair result
      let skips := match skipRecord with
        | some record => (directory, record) :: acc.1
        | none => acc.1
      let samples := match sampleRecord with
        | some record => acc.2 ++ [record]
        | none => acc.2
      pure (skips, samples)) (([], []) :
        List (FsPath × DirectorySkipRecord) × List EntropySampleRecord)
  else
    .ok (directories.foldl (fun acc directory =>
      match evalDir directory >>= unpackSkipSamplePair with
      | .error _ => acc
      | .ok (skipRecord, sampleRecord) =>
        (match skipRecord with
          | some record => (directory, record) :: acc.1
          | none => acc.1,
         match sampleRecord with
          | some record => acc.2 ++ [record]
          | none => acc.2)) ([], []))

/-- Lookup in the association-list embedding of a Python dict. -/
def alistLookup (m : List (FsPath × DirectorySkipRecord)) (k : FsPath) :
    Option DirectorySkipRecord :=
  match m with
  | [] => none
  | (k', v) :: rest => if k' = k then some v else alistLookup rest k

/-- Embedding of `compression_planner._has_skipped_ancestor`. -/
def hasSkippedAncestor (directory baseDir : FsPath)
    (skipped : List (FsPath × DirectorySkipRecord)) : Bool :=
  (ancestorsIncludingBase directory baseDir).any (fun ancestor =>
    match alistLookup skipped ancestor with
    | none => false
    | some _ => !(ancestor = baseDir ∧ directory ≠ baseDir : Bool))

/-- Embedding of `compression_planner._locate_skip_record`. -/
def locateSkipRecord (directory baseDir : FsPath)
    (skipped : List (FsPath × DirectorySkipRecord)) :
    Option DirectorySkipRecord :=
  (ancestorsIncludingBase directory baseDir).findSome? (fun ancestor =>
    match alistLookup skipped ancestor with
    | none => none
    | some record =>
      if ancestor = baseDir ∧ directory ≠ baseDir then none else some record)

/-- Embedding of the Python sort key
`lambda item: (len(item.parts), str(item).casefold())`. -/
def dirSortKeyStr (p : FsPath) : String := (String.intercalate "/" p).toLower

/-- Comparison relation realised by the Python `sorted(...)` call of
`_filter_high_entropy_directories`: ascending depth, then the case-folded
rendering of the path. -/
def DirLe (a b : FsPath) : Prop :=
  a.length < b.length ∨ (a.length = b.length ∧ dirSortKeyStr a ≤ dirSortKeyStr b)

instance : DecidablePred fun p : FsPath × FsPath => DirLe p.1 p.2 := by
  intro p; unfold DirLe; infer_instance

instance (a b : FsPath) : Decidable (DirLe a b) := by
  unfold DirLe; infer_instance

/-- Insertion step of the sort modelling the Python `sorted(...)` call. -/
def insertDir (a : FsPath) : List FsPath → List FsPath
  | [] => [a]
  | b :: rest => if DirLe a b then a :: b :: rest else b :: insertDir a rest

/-- Sort used by the ancestor-dominance pass.  Python `sorted` on a set is
some `DirLe`-sorted enumeration (ties between distinct paths with equal keys
are broken by the non-deterministic set iteration order); insertion sort
realises one such enumeration. -/
def sortDirectories (l : List FsPath) : List FsPath := l.foldr insertDir []

/-- Embedding of one iteration of the ancestor-dominance loop of
`_filter_high_entropy_directories` (lines 298–305): accumulator is the
`skipped_directories` map together with the run stats the registration
appends to. -/
def dominanceStep (baseDir : FsPath)
    (entropyRecords : List (FsPath × DirectorySkipRecord))
    (acc : List (FsPath × DirectorySkipRecord) × CompressionStats)
    (directory : FsPath) :
    List (FsPath × DirectorySkipRecord) × CompressionStats :=
  if hasSkippedAncestor directory baseDir acc.1 then acc
  else
    match alistLookup entropyRecords directory with
    | none => acc
    | some record =>
      ((directory, record) :: acc.1, appendDirectorySkipRecord acc.2 record)

/-- Embedding of the full ancestor-dominance pass: directories in ascending
depth order, parents resolved before children. -/
def dominancePass (directories : List FsPath) (baseDir : FsPath)
    (entropyRecords : List (FsPath × DirectorySkipRecord))
    (stats : CompressionStats) :
    List (FsPath × DirectorySkipRecord) × CompressionStats :=
  (sortDirectories directories).foldl (dominanceStep baseDir entropyRecords)
    ([], stats)

/-- Embedding of the candidate-removal loop at the end of
`_filter_high_entropy_directories` (lines 310–335). -/
def applyEntropySkips (rootSkipRecord : Option DirectorySkipRecord)
    (skippedDirectories : List (FsPath × DirectorySkipRecord))
    (baseDir : FsPath) (candidates : List (FsPath × ℕ × String))
    (stats : CompressionStats) :
    List (FsPath × ℕ × String) × CompressionStats :=
  candidates.foldl (fun acc c =>
    match rootSkipRecord with
    | some rootRecord =>
      if c.1.dropLast = baseDir then
        (acc.1, recordFileSkip acc.2 c.1 rootRecord.reason c.2.1 c.2.1
          false (some rootRecord.category))
      else
        match locateSkipRecord c.1.dropLast baseDir skippedDirectories with
        | some record =>
          (acc.1, recordFileSkip acc.2 c.1 record.reason c.2.1 c.2.1
            false (some record.category))
        | none => (acc.1 ++ [c], acc.2)
    | none =>
      match locateSkipRecord c.1.dropLast baseDir skippedDirectories with
      | some record =>
        (acc.1, recordFileSkip acc.2 c.1 record.reason c.2.1 c.2.1
          false (some record.category))
      | none => (acc.1 ++ [c], acc.2)) ([], stats)

/-- Embedding of the root-directory special case of
`_filter_high_entropy_directories` (lines 223–277): returns the optional
root-level skip record and the updated stats.  Its call to
`sample_directory_entropy(base_dir, include_subdirectories=False)` is the
parameter `rootSample`. -/
def rootEntropyCheck (rootSample : Option ℚ × ℕ × ℕ) (baseDir : FsPath)
    (candidates : List (FsPath × ℕ × String)) (minSavingsPercent : ℚ)
    (stats : CompressionStats) :
    Option DirectorySkipRecord × CompressionStats :=
  if candidates.any (fun c => c.1.dropLast = baseDir) then
    match rootSample with
    | (none, _, _) => (none, stats)
    | (some averageEntropy, sampledFiles, sampledBytes) =>
      if 0 < sampledFiles ∧ 1024 ≤ sampledBytes then
        let estimatedSavings := savings_from_entropy averageEntropy
        let rootSampleRecord : EntropySampleRecord :=
          { path := baseDir, relativePath := relativeToBase baseDir baseDir,
            averageEntropy := averageEntropy,
            estimatedSavings := estimatedSavings,
            sampledFiles := sampledFiles, sampledBytes := sampledBytes,
            totalBytes := 0 }
        let stats := { stats with
          entropySamples := stats.entropySamples ++ [rootSampleRecord],
          entropyDirectoriesSampled := stats.entropyDirectoriesSampled + 1 }
        let stats := if estimatedSavings < minSavingsPercent then
            { stats with entropyDirectoriesBelowThreshold :=
                stats.entropyDirectoriesBelowThreshold + 1 }
          else stats
        if estimatedSavings < minSavingsPercent then
          let record : DirectorySkipRecord :=
            { path := baseDir, relativePath := ["."],
              reason := highEntropyReason estimatedSavings,
              category := "high_entropy",
              averageEntropy := some averageEntropy,
              estimatedSavings := some estimatedSavings,
              sampledFiles := sampledFiles, sampledBytes := sampledBytes }
          (some record, appendDirectorySkipRecord stats record)
        else (none, stats)
      else (none, stats)
  else (none, stats)

/-- Embedding of the bookkeeping loop over the parallel phase's sample
records (lines 292–296 of `compression_planner.py`). -/
def recordSampleStats (sampleRecords : List EntropySampleRecord)
    (minSavingsPercent : ℚ) (stats : CompressionStats) : CompressionStats :=
  sampleRecords.foldl (fun s record =>
    let s := { s with entropySamples := s.entropySamples ++ [record],
                      entropyDirectoriesSampled := s.entropyDirectoriesSampled + 1 }
    if record.estimatedSavings < minSavingsPercent then
      { s with entropyDirectoriesBelowThreshold :=
          s.entropyDirectoriesBelowThreshold + 1 }
    else s) stats

/-- Embedding of `compression_planner._filter_high_entropy_directories`.
The two sampling effects are parameters: `rootSample` is the non-recursive
entropy sample of the base directory and `evalDir` the per-directory task of
the parallel phase.  The performance monitor only aggregates timing
counters, which no claim observes, and is omitted.  The set of distinct
candidate parents is modelled with `dedup`; its iteration order is only
observable through the `DirLe` sort of the dominance pass. -/
def filterHighEntropyDirectories (rootSample : Option ℚ × ℕ × ℕ)
    (evalDir : FsPath → Except String (Option DirectorySkipRecord))
    (workerCount : ℕ) (candidates : List (FsPath × ℕ × String))
    (baseDir : FsPath) (minSavingsPercent : ℚ) (stats : CompressionStats) :
    Except String (List (FsPath × ℕ × String) × CompressionStats) :=
  if candidates = [] ∨ minSavingsPercent ≤ 0 then .ok (candidates, stats)
  else
    let parents := (candidates.map (fun c => c.1.dropLast)).dedup
    let directories := if baseDir ∈ parents then parents else parents ++ [baseDir]
    let rootResult := rootEntropyCheck rootSample baseDir candidates
      minSavingsPercent stats
    match evaluateDirectoriesParallel evalDir workerCount
        (directories.filter (fun d => d ≠ baseDir)) with
    | .error e => .error e
    | .ok (entropyRecords, sampleRecords) =>
      let stats := recordSampleStats sampleRecords minSavingsPercent rootResult.2
      let passed := dominancePass directories baseDir entropyRecords stats
      if passed.1 = [] then .ok (candidates, passed.2)
      else .ok (applyEntropySkips rootResult.1 passed.1 baseDir candidates passed.2)

/-- Embedding of the keyword-parameter surface of
`compression_module.compress_directory` (its signature accepts exactly these
names). -/
def compressDirectoryParams : List String :=
  ["directory_path", "verbosity", "thorough_check", "min_savings_percent"]

/-- Keyword arguments `main.run_compression` passes to `compress_directory`
(the directory itself is passed positionally; `debug_scan_all` is always
among the keywords, whatever its value). -/
def runCompressionKwargs : List String :=
  ["verbosity", "thorough_check", "min_savings_percent", "debug_scan_all"]

/-- Python call semantics for keyword arguments: a keyword that is not a
parameter of the callee raises `TypeError` before the callee body runs. -/
def pythonKwargsCall (params kwargs : List String) : Except String Unit :=
  if kwargs.all (fun k => params.contains k) then .ok ()
  else .error "TypeError: got an unexpected keyword argument"

/-- Sample skip record for a directory, as `evaluate_entropy_directory`
would build it for an 8 bits/byte average over 4096 sampled bytes. -/
def demoSkipRecord (directory : FsPath) : DirectorySkipRecord :=
  { path := directory, relativePath := directory,
    reason := "High entropy (est. 0% savings)", category := "high_entropy",
    averageEntropy := some 8, estimatedSavings := some 0,
    sampledFiles := 3, sampledBytes := 4096 }

/-- Directory trees, the input of the walker: a directory holds its direct
files (name and size) and named subdirectories.  Symbolic links are skipped
by the walker (`follow_symlinks=False`) and are not part of the model. -/
inductive FsTree where
  | node (files : List (String × ℕ)) (children : List (String × FsTree))
deriving Repr

mutual

/-- Every file in the subtree rooted at path `p` with tree `t`, with its
absolute path; this is also the file set `os.walk` enumerates in
`compression_planner._traverse_skipped`, which consults no policy. -/
def subtreeFiles (p : FsPath) : FsTree → List (FsPath × ℕ)
  | .node files children =>
    files.map (fun f => (p ++ [f.1], f.2)) ++ subtreeFilesChildren p children

/-- Subtree files of a list of named children of the directory at `p`. -/
def subtreeFilesChildren (p : FsPath) :
    List (String × FsTree) → List (FsPath × ℕ)
  | [] => []
  | c :: rest => subtreeFiles (p ++ [c.1]) c.2 ++ subtreeFilesChildren p rest

end

mutual

/-- Every directory of the tree rooted at path `p`, paired with its
subtree. -/
def dirsOf (p : FsPath) : FsTree → List (FsPath × FsTree)
  | .node files children =>
    (p, .node files children) :: dirsOfChildren p children

/-- Directories contributed by a list of named children of the directory
at `p`. -/
def dirsOfChildren (p : FsPath) : List (String × FsTree) → List (FsPath × FsTree)
  | [] => []
  | c :: rest => dirsOf (p ++ [c.1]) c.2 ++ dirsOfChildren p rest

end

/-- Name-uniqueness of directory entries, as guaranteed by a real
filesystem: within each directory, the file names and subdirectory names
are pairwise distinct. -/
inductive NodupNames : FsTree → Prop where
  | node (files : List (String × ℕ)) (children : List (String × FsTree))
      (hnames : (files.map Prod.fst ++ children.map Prod.fst).Nodup)
      (hchildren : ∀ c ∈ children, NodupNames c.2) :
      NodupNames (.node files children)

/-- Loop over the subdirectory entries of the admitted directory at `p`,
threading the accumulated (yield, callback) pair exactly as the source's
stack discipline does: a subdirectory the policy skips contributes its
whole subtree to the pruned-file callback stream
(`compression_planner._traverse_skipped`), an admitted one is traversed
recursively — its direct files are yielded and its own child loop is
entered (the admitted-directory body of `iter_files` is inlined at the
descent site). -/
def walkChildren (policy : FsPath → Bool) (p : FsPath) :
    List (String × FsTree) → List (FsPath × ℕ) × List (FsPath × ℕ) →
    List (FsPath × ℕ) × List (FsPath × ℕ)
  | [], acc => acc
  | c :: rest, acc =>
    if policy (p ++ [c.1]) then
      walkChildren policy p rest
        (acc.1, acc.2 ++ subtreeFiles (p ++ [c.1]) c.2)
    else
      match h2 : c.2 with
      | .node fs cs =>
        walkChildren policy p rest
          (acc.1 ++ (walkChildren policy (p ++ [c.1]) cs
            (fs.map (fun f => ((p ++ [c.1]) ++ [f.1], f.2)), [])).1,
           acc.2 ++ (walkChildren policy (p ++ [c.1]) cs
            (fs.map (fun f => ((p ++ [c.1]) ++ [f.1], f.2)), [])).2)
termination_by cs _ => sizeOf cs
decreasing_by
  · simp
  · obtain ⟨n, t2⟩ := c
    simp at h2 ⊢
    subst h2
    simp
    omega
  · simp

/-- Embedding of the stack-driven traversal of
`compression_planner.iter_files` for an admitted directory at path `p`:
yield the direct files, then run the child loop over the subdirectories.
The result is the pair (yielded file stream, pruned-file callback stream);
the stack discipline of the source realises exactly this preorder.
`maybe_skip_directory` is called with `collect_entropy=False` on
this path, where its decision is that of the external admissibility policy
`should_skip_directory` (from the absent `src/file_utils.py`), here the
parameter `policy` (`true` = skip); the `DirectorySkipRecord` it appends to
the stats for a denied directory does not influence either stream and is
not modelled. -/
def walkAux (policy : FsPath → Bool) (p : FsPath) :
    FsTree → List (FsPath × ℕ) × List (FsPath × ℕ)
  | .node files children =>
    walkChildren policy p children (files.map (fun f => (p ++ [f.1], f.2)), [])

/-- Embedding of `compression_planner.iter_files`: the root is checked
against the policy first; if skipped, nothing is yielded and the whole tree
goes to the pruned-file callback. -/
def iterFiles (policy : FsPath → Bool) (rootPath : FsPath) (t : FsTree) :
    List (FsPath × ℕ) × List (FsPath × ℕ) :=
  if policy rootPath then ([], subtreeFiles rootPath t)
  else walkAux policy rootPath t

/-- Embedding of `file_utils.CompressionDecision` (the external file
classifier's verdict). -/
structure CompressionDecision where
  shouldCompress : Bool
  reason : String
  sizeHint : Option ℕ := none
deriving Repr, DecidableEq

/-- Embedding of the scan loop of `compression_planner.plan_compression`
over the discovered files.  The external classifier `should_compress_file`
is the parameter `classify`, returning `none` where the Python payload
carries no decision (a failed `stat`, whose error string is abstracted);
`COMPRESSION_ALGORITHMS[get_size_category(size)]` — both from the absent
`src/config.py` — is the parameter `algorithmOf`.  Candidates keep
discovery order (the sort by scan index in the source is a sort by
enumeration order).  Progress and observer callbacks are presentational and
omitted.  `planScanStep` is the body of the loop for one discovered
file. -/
def planScanStep (classify : FsPath → ℕ → Option CompressionDecision)
    (algorithmOf : ℕ → String)
    (acc : List (FsPath × ℕ × String) × CompressionStats) (f : FsPath × ℕ) :
    List (FsPath × ℕ × String) × CompressionStats :=
  match classify f.1 f.2 with
  | none =>
    let reason := "Error processing file"
    let stats := { acc.2 with errors := acc.2.errors ++ [reason] }
    (acc.1, recordFileSkip stats f.1 reason 0 0 false (some "error"))
  | some decision =>
    let stats := { acc.2 with
      totalOriginalSize := acc.2.totalOriginalSize + f.2 }
    if decision.shouldCompress then
      (acc.1 ++ [(f.1, f.2, algorithmOf f.2)], stats)
    else
      let resolvedSize := match decision.sizeHint with
        | some hint => if hint = 0 then f.2 else hint
        | none => f.2
      let category := if containsLowered decision.reason "extension" then
          some "extension" else none
      (acc.1, recordFileSkip stats f.1 decision.reason resolvedSize f.2
        (containsLowered decision.reason "already compressed") category)

/-- The fold of `planScanStep` over the discovered files, starting from an
empty candidate list. -/
def planScan (classify : FsPath → ℕ → Option CompressionDecision)
    (algorithmOf : ℕ → String) (files : List (FsPath × ℕ))
    (stats : CompressionStats) :
    List (FsPath × ℕ × String) × CompressionStats :=
  files.foldl (planScanStep classify algorithmOf) ([], stats)

/-- Embedding of `compression_planner.plan_compression`: the single-threaded
scan/classification pass followed, when `applyEntropyFilter` is set (its
Python default is `True` and `compress_directory` never overrides it), by
the entropy filter. -/
def planCompression (classify : FsPath → ℕ → Option CompressionDecision)
    (algorithmOf : ℕ → String) (rootSample : Option ℚ × ℕ × ℕ)
    (evalDir : FsPath → Except String (Option DirectorySkipRecord))
    (workerCount : ℕ) (files : List (FsPath × ℕ)) (baseDir : FsPath)
    (minSavingsPercent : ℚ) (stats : CompressionStats)
    (applyEntropyFilter : Bool := true) :
    Except String (List (FsPath × ℕ × String) × CompressionStats) :=
  let scanned := planScan classify algorithmOf files stats
  if applyEntropyFilter then
    filterHighEntropyDirectories rootSample evalDir workerCount scanned.1
      baseDir minSavingsPercent scanned.2
  else .ok scanned

/-! Theorems. -/

/-- Binding the result of `evaluate_entropy_directory` through the
two-name unpacking always raises, whether the task itself succeeded or
failed. -/
theorem bind_unpackSkipSamplePair_isError
    (x : Except String (Option DirectorySkipRecord)) :
    ∃ e, x >>= unpackSkipSamplePair = .error e := by
  cases x with
  | error e => exact ⟨e, rfl⟩
  | ok v => cases v with
    | none => exact ⟨_, rfl⟩
    | some r => exact ⟨_, rfl⟩

/-- Folding a step function that never changes the accumulator is the
identity. -/
theorem foldl_fixed {α β : Type} (f : α → β → α) (l : List β)
    (hf : ∀ a b, b ∈ l → f a b = a) (a : α) : l.foldl f a = a := by
  induction l generalizing a with
  | nil => rfl
  | cons b rest ih =>
    rw [List.foldl_cons, hf a b (List.mem_cons_self b rest)]
    exact ih (fun a c hc => hf a c (List.mem_cons_of_mem b hc)) a

/-- C1.  The claim fails on the code: `evaluate_entropy_directory` returns
a single `Optional[DirectorySkipRecord]`, while its caller
`evaluate_directories_parallel` unpacks each result into
`(skip_record, sample_record)`.  In the sequential branch (one directory,
here with worker count 1) the resulting `TypeError` propagates; in the
thread-pool branch the per-task handler swallows it, so even a directory
whose sampling succeeds and whose decision is "skip" contributes neither an
`EntropySampleRecord` nor a `DirectorySkipRecord`: the pool returns empty
results. -/
theorem evaluateDirectoriesParallel_unpack_bug :
    evaluateDirectoriesParallel (fun _ => .ok none) 1 [["base", "sub"]] =
      .error "TypeError: cannot unpack non-iterable NoneType object" ∧
    evaluateDirectoriesParallel (fun d => .ok (some (demoSkipRecord d)))
      1 [["base", "sub"]] =
      .error "TypeError: cannot unpack non-iterable DirectorySkipRecord object" ∧
    evaluateDirectoriesParallel (fun d => .ok (some (demoSkipRecord d)))
      4 [["base", "a"], ["base", "b"]] = .ok ([], []) :=
  ⟨rfl, rfl, rfl⟩

/-- C2 counterexample.  The sampler itself enforces no 1024-byte floor: a
directory whose selection is a single 100-byte file (under a compression
probe reporting 256 output bytes) yields a non-null average entropy with
only 100 sampled bytes. -/
theorem sampleDirectoryEntropy_below_floor_average :
    sampleDirectoryEntropy (fun _ => 256) [List.replicate 100 7] 50 65536
        (4 * 1024 * 1024) = (some 8, 1, 100) ∧ 100 < 1024 := by
  refine ⟨?_, by norm_num⟩
  norm_num [sampleDirectoryEntropy, sampleDirectoryRun, sampleDirStep,
    sampleFileEntropy, sampleWindowStep, deriveWindowSize, planSampleWindows,
    dedupClampWindows, compressionProbeEntropy, TARGET_WINDOW_SIZE,
    MAX_SAMPLE_WINDOWS, List.foldl]

/-- C2 amended.  The 1024-sampled-byte validity floor is enforced by the
skip-decision callers, not by the sampler: with fewer than 1024 sampled
bytes `evaluate_entropy_directory` produces no skip record, and the
planner's root-directory check produces neither a record nor any stats
update. -/
theorem validity_floor_in_skip_logic (averageEntropy : ℚ)
    (sampledFiles sampledBytes : ℕ) (directory baseDir : FsPath)
    (minSavingsPercent : ℚ) (candidates : List (FsPath × ℕ × String))
    (stats : CompressionStats) (h : sampledBytes < 1024) :
    evaluateEntropyDirectory (some averageEntropy, sampledFiles, sampledBytes)
        directory baseDir minSavingsPercent = none ∧
    rootEntropyCheck (some averageEntropy, sampledFiles, sampledBytes)
        baseDir candidates minSavingsPercent stats = (none, stats) := by
  constructor
  · unfold evaluateEntropyDirectory
    by_cases hd : directory = baseDir
    · rw [if_pos hd]
    · rw [if_neg hd]
      simp only
      rw [if_pos (Or.inr h)]
  · unfold rootEntropyCheck
    by_cases hc : candidates.any (fun c => c.1.dropLast = baseDir)
    · rw [if_pos hc]
      simp only
      rw [if_neg]
      intro ⟨_, h1024⟩
      omega
    · rw [if_neg hc]

/-- C2 amended, witness. -/
theorem validity_floor_in_skip_logic_witness :
    evaluateEntropyDirectory (some 8, 1, 100) ["base", "sub"] ["base"] 50 =
        none ∧
    rootEntropyCheck (some 8, 1, 100) ["base"]
        [(["base", "a.bin"], 2048, "xpress8k")] 50 {} = (none, {}) :=
  validity_floor_in_skip_logic 8 1 100 ["base", "sub"] ["base"] 50
    [(["base", "a.bin"], 2048, "xpress8k")] {} (by decide)

/-- Fuel irrelevance for the ancestor chain: any fuel at least the length
of the path computes the same chain. -/
theorem ancestorsGo_eq_ancestors (base : FsPath) :
    ∀ (fuel : ℕ) (p : FsPath), p.length ≤ fuel →
      ancestorsGo base fuel p = ancestorsIncludingBase p base := by
  intro fuel
  induction fuel with
  | zero =>
    intro p hp
    have : p = [] := List.length_eq_zero.mp (Nat.le_zero.mp hp)
    subst this
    rfl
  | succ n ih =>
    intro p hp
    unfold ancestorsIncludingBase
    cases hl : p.length with
    | zero =>
      have : p = [] := List.length_eq_zero.mp hl
      subst this
      unfold ancestorsGo
      by_cases hb : ([] : FsPath) = base <;> simp [hb]
    | succ m =>
      have hpn : p ≠ [] := by
        intro h
        rw [h] at hl
        exact Nat.noConfusion hl
      by_cases hb : p = base
      · unfold ancestorsGo
        rw [if_pos hb, if_pos hb]
      · unfold ancestorsGo
        rw [if_neg hb, if_neg hpn, if_neg hb, if_neg hpn]
        have hdl : p.dropLast.length = m := by
          rw [List.length_dropLast, hl]
          omega
        congr 1
        rw [ih p.dropLast (by omega)]
        unfold ancestorsIncludingBase
        rw [hdl]

/-- Unfolding step of the ancestor chain away from the base and the root. -/
theorem ancestorsIncludingBase_cons (p base : FsPath) (h1 : p ≠ base)
    (h2 : p ≠ []) :
    ancestorsIncludingBase p base = p :: ancestorsIncludingBase p.dropLast base := by
  obtain ⟨m, hl⟩ : ∃ m, p.length = m + 1 := by
    cases hp : p.length with
    | zero => exact absurd (List.length_eq_zero.mp hp) h2
    | succ m => exact ⟨m, rfl⟩
  have hdl : p.dropLast.length = m := by
    rw [List.length_dropLast, hl]
    omega
  have key : ancestorsGo base (m + 1) p =
      if p = base then [p]
      else if p = [] then [p]
      else p :: ancestorsGo base m p.dropLast := rfl
  show ancestorsGo base p.length p = p :: ancestorsIncludingBase p.dropLast base
  rw [hl, key, if_neg h1, if_neg h2,
    ancestorsGo_eq_ancestors base m p.dropLast (le_of_eq hdl)]

/-- The ancestor chain at the base itself is the singleton chain. -/
theorem ancestorsIncludingBase_self (base : FsPath) :
    ancestorsIncludingBase base base = [base] := by
  unfold ancestorsIncludingBase
  cases hl : base.length with
  | zero => rfl
  | succ m =>
    unfold ancestorsGo
    rw [if_pos rfl]

/-- Membership in the ancestor chain of `B`, when the base directory lies
above `B`: exactly the prefixes of `B` extending the base. -/
theorem mem_ancestorsIncludingBase (A B base : FsPath) (hbase : base <+: B) :
    A ∈ ancestorsIncludingBase B base ↔ (A <+: B ∧ base <+: A) := by
  induction B using List.reverseRecOn with
  | nil =>
    have hb : base = [] := List.prefix_nil.mp hbase
    subst hb
    constructor
    · intro h
      have : A = [] := by
        have : ancestorsIncludingBase ([] : FsPath) [] = [[]] := rfl
        rw [this] at h
        simpa using h
      subst this
      exact ⟨List.prefix_rfl, List.prefix_rfl⟩
    · intro ⟨h1, _⟩
      have : A = [] := List.prefix_nil.mp h1
      subst this
      have : ancestorsIncludingBase ([] : FsPath) [] = [[]] := rfl
      rw [this]
      exact List.mem_singleton.mpr rfl
  | append_singleton bs b ih =>
    by_cases hb : bs ++ [b] = base
    · rw [← hb]
      rw [ancestorsIncludingBase_self]
      constructor
      · intro h
        have hA : A = bs ++ [b] := List.mem_singleton.mp h
        subst hA
        exact ⟨List.prefix_rfl, List.prefix_rfl⟩
      · intro ⟨h1, h2⟩
        rw [hb] at h1 h2 ⊢
        have heq := h1.eq_of_length
          (Nat.le_antisymm h1.length_le h2.length_le)
        exact List.mem_singleton.mpr heq
    · have hne : bs ++ [b] ≠ [] := by simp
      rw [ancestorsIncludingBase_cons _ _ hb hne, List.dropLast_concat]
      have hbasebs : base <+: bs := by
        rcases (List.prefix_concat_iff.mp hbase) with h | h
        · exact absurd h.symm hb
        · exact h
      rw [List.mem_cons, ih hbasebs]
      constructor
      · rintro (h | ⟨h1, h2⟩)
        · subst h
          exact ⟨List.prefix_rfl, hbase⟩
        · exact ⟨h1.trans (List.prefix_append bs [b]), h2⟩
      · rintro ⟨h1, h2⟩
        rcases List.prefix_concat_iff.mp h1 with h | h
        · exact Or.inl h
        · exact Or.inr ⟨h, h2⟩

/-- A strict extension of a path is still an extension of its `dropLast`. -/
theorem prefix_dropLast_of_lt (A q : FsPath) (h : A <+: q)
    (hlen : A.length < q.length) : A <+: q.dropLast := by
  rw [List.prefix_iff_eq_take] at h ⊢
  rw [List.dropLast_eq_take, List.take_take]
  rw [min_eq_left (by omega)]
  exact h

/-- Proper prefixes are strictly shorter. -/
theorem length_lt_of_proper_prefix (A B : FsPath) (h : A <+: B) (hne : A ≠ B) :
    A.length < B.length := by
  rcases Nat.lt_or_ge A.length B.length with h' | h'
  · exact h'
  · exact absurd (h.eq_of_length (Nat.le_antisymm h.length_le h')) hne

/-- The sort relation respects length. -/
theorem DirLe_length {a b : FsPath} (h : DirLe a b) : a.length ≤ b.length := by
  rcases h with h | ⟨h, _⟩
  · exact Nat.le_of_lt h
  · exact Nat.le_of_eq h

/-- Totality of the sort relation. -/
theorem DirLe_total (a b : FsPath) : DirLe a b ∨ DirLe b a := by
  rcases Nat.lt_trichotomy a.length b.length with h | h | h
  · exact Or.inl (Or.inl h)
  · rcases le_total (dirSortKeyStr a) (dirSortKeyStr b) with hs | hs
    · exact Or.inl (Or.inr ⟨h, hs⟩)
    · exact Or.inr (Or.inr ⟨h.symm, hs⟩)
  · exact Or.inr (Or.inl h)

/-- Transitivity of the sort relation. -/
theorem DirLe_trans {a b c : FsPath} (h1 : DirLe a b) (h2 : DirLe b c) :
    DirLe a c := by
  rcases h1 with h1 | ⟨h1, h1s⟩ <;> rcases h2 with h2 | ⟨h2, h2s⟩
  · exact Or.inl (h1.trans h2)
  · exact Or.inl (h2 ▸ h1)
  · exact Or.inl (h1 ▸ h2)
  · exact Or.inr ⟨h1.trans h2, h1s.trans h2s⟩

/-- Membership through insertion. -/
theorem mem_insertDir (x a : FsPath) (l : List FsPath) :
    x ∈ insertDir a l ↔ x = a ∨ x ∈ l := by
  induction l with
  | nil => simp [insertDir]
  | cons b rest ih =>
    unfold insertDir
    by_cases h : DirLe a b
    · rw [if_pos h]
      simp [List.mem_cons]
    · rw [if_neg h]
      simp only [List.mem_cons, ih]
      tauto

/-- Insertion preserves sortedness. -/
theorem pairwise_insertDir (a : FsPath) (l : List FsPath)
    (h : l.Pairwise DirLe) : (insertDir a l).Pairwise DirLe := by
  induction l with
  | nil => simp [insertDir]
  | cons b rest ih =>
    rcases List.pairwise_cons.mp h with ⟨hb, hrest⟩
    unfold insertDir
    by_cases hab : DirLe a b
    · rw [if_pos hab]
      refine List.pairwise_cons.mpr ⟨?_, h⟩
      intro x hx
      rcases List.mem_cons.mp hx with hx | hx
      · exact hx ▸ hab
      · exact DirLe_trans hab (hb x hx)
    · rw [if_neg hab]
      refine List.pairwise_cons.mpr ⟨?_, ih hrest⟩
      intro x hx
      rcases (mem_insertDir x a rest).mp hx with hx | hx
      · rcases DirLe_total a b with h' | h'
        · exact absurd h' hab
        · rw [hx]
          exact h'
      · exact hb x hx

/-- The directory sort is sorted. -/
theorem sortDirectories_pairwise (l : List FsPath) :
    (sortDirectories l).Pairwise DirLe := by
  induction l with
  | nil => exact List.Pairwise.nil
  | cons a rest ih => exact pairwise_insertDir a _ ih

/-- A dominance step leaves lookups of other keys unchanged. -/
theorem dominanceStep_lookup_ne (baseDir : FsPath)
    (er : List (FsPath × DirectorySkipRecord))
    (acc : List (FsPath × DirectorySkipRecord) × CompressionStats)
    (d k : FsPath) (h : d ≠ k) :
    alistLookup (dominanceStep baseDir er acc d).1 k = alistLookup acc.1 k := by
  unfold dominanceStep
  by_cases hs : hasSkippedAncestor d baseDir acc.1
  · rw [if_pos hs]
  · rw [if_neg hs]
    cases he : alistLookup er d with
    | none => rfl
    | some record =>
      show alistLookup ((d, record) :: acc.1) k = alistLookup acc.1 k
      rw [show alistLookup ((d, record) :: acc.1) k =
          if d = k then some record else alistLookup acc.1 k from rfl,
        if_neg h]

/-- Keys found after the dominance fold were present before it or belong to
the processed list. -/
theorem dominance_fold_lookup_mem (baseDir : FsPath)
    (er : List (FsPath × DirectorySkipRecord)) (k : FsPath)
    (v : DirectorySkipRecord) :
    ∀ (l : List FsPath)
      (acc : List (FsPath × DirectorySkipRecord) × CompressionStats),
      alistLookup (l.foldl (dominanceStep baseDir er) acc).1 k = some v →
      alistLookup acc.1 k = some v ∨ k ∈ l := by
  intro l
  induction l with
  | nil =>
    intro acc h
    exact Or.inl h
  | cons d rest ih =>
    intro acc h
    rw [List.foldl_cons] at h
    rcases ih (dominanceStep baseDir er acc d) h with h' | h'
    · by_cases hdk : d = k
      · exact Or.inr (List.mem_cons.mpr (Or.inl hdk.symm))
      · rw [dominanceStep_lookup_ne baseDir er acc d k hdk] at h'
        exact Or.inl h'
    · exact Or.inr (List.mem_cons.mpr (Or.inr h'))

/-- Core of the ancestor-dominance invariant: with a registered strict
ancestor `A` (below the base) of `B`, a sorted dominance fold that starts
with no entry for `B` ends with no entry for `B`. -/
theorem dominance_fold_no_descendant (baseDir : FsPath)
    (er : List (FsPath × DirectorySkipRecord)) (A B : FsPath)
    (rA : DirectorySkipRecord) (hAbase : A ≠ baseDir)
    (hbaseA : baseDir <+: A) (hAB : A <+: B) (hABne : A ≠ B) :
    ∀ (l : List FsPath), l.Pairwise DirLe →
    ∀ (acc : List (FsPath × DirectorySkipRecord) × CompressionStats),
      alistLookup acc.1 B = none →
      alistLookup (l.foldl (dominanceStep baseDir er) acc).1 A = some rA →
      alistLookup (l.foldl (dominanceStep baseDir er) acc).1 B = none := by
  have hlenAB : A.length < B.length := length_lt_of_proper_prefix A B hAB hABne
  intro l
  induction l with
  | nil =>
    intro _ acc hB _
    exact hB
  | cons d rest ih =>
    intro hpair acc hB hA
    rcases List.pairwise_cons.mp hpair with ⟨hd, hrest⟩
    rw [List.foldl_cons] at hA ⊢
    by_cases hdB : d = B
    · subst hdB
      by_cases hs : hasSkippedAncestor d baseDir acc.1
      · have hacc : dominanceStep baseDir er acc d = acc := by
          unfold dominanceStep
          rw [if_pos hs]
        rw [hacc] at hA ⊢
        exact ih hrest acc hB hA
      · cases he : alistLookup er d with
        | none =>
          have hacc : dominanceStep baseDir er acc d = acc := by
            unfold dominanceStep
            rw [if_neg hs, he]
          rw [hacc] at hA ⊢
          exact ih hrest acc hB hA
        | some rB =>
          exfalso
          have hstep : (dominanceStep baseDir er acc d).1 =
              (d, rB) :: acc.1 := by
            unfold dominanceStep
            rw [if_neg hs, he]
          rcases dominance_fold_lookup_mem baseDir er A rA rest _ hA with h' | h'
          · rw [hstep] at h'
            unfold alistLookup at h'
            rw [if_neg (by intro h; subst h; omega)] at h'
            apply absurd hs
            intro hcon
            apply hcon
            unfold hasSkippedAncestor
            rw [List.any_eq_true]
            refine ⟨A, ?_, ?_⟩
            · exact (mem_ancestorsIncludingBase A d baseDir
                (hbaseA.trans hAB)).mpr ⟨hAB, hbaseA⟩
            · rw [h']
              simp [hAbase]
          · have := DirLe_length (hd A h')
            omega
    · refine ih hrest (dominanceStep baseDir er acc d) ?_ hA
      rw [dominanceStep_lookup_ne baseDir er acc d B hdB]
      exact hB

/-- Pointwise-equal selectors find the same first hit. -/
theorem findSome?_congr_fn {α β : Type} (l : List α) (f g : α → Option β)
    (h : ∀ x ∈ l, f x = g x) : l.findSome? f = l.findSome? g := by
  induction l with
  | nil => rfl
  | cons a rest ih =>
    rw [List.findSome?_cons, List.findSome?_cons,
      h a (List.mem_cons_self a rest)]
    cases g a with
    | none => exact ih (fun x hx => h x (List.mem_cons_of_mem a hx))
    | some b => rfl

/-- When `A` (strictly below the base) is registered in the skip map and no
strict descendant of `A` is, `_locate_skip_record` resolves every directory
at or below `A` to A's record. -/
theorem locate_finds_registered (M : List (FsPath × DirectorySkipRecord))
    (A : FsPath) (rA : DirectorySkipRecord) (base : FsPath)
    (hAbase : A ≠ base) (hbaseA : base <+: A)
    (hA : alistLookup M A = some rA)
    (hdesc : ∀ C, A <+: C → A ≠ C → alistLookup M C = none) :
    ∀ q : FsPath, A <+: q → locateSkipRecord q base M = some rA := by
  have hAnil : A ≠ [] := by
    intro h
    subst h
    exact hAbase (List.prefix_nil.mp hbaseA).symm
  intro q
  induction q using List.reverseRecOn with
  | nil =>
    intro hAq
    exact absurd (List.prefix_nil.mp hAq) hAnil
  | append_singleton bs b ih =>
    intro hAq
    by_cases hq : A = bs ++ [b]
    · rw [← hq]
      unfold locateSkipRecord
      rw [ancestorsIncludingBase_cons A base hAbase hAnil]
      have hnc : ¬(A = base ∧ A ≠ base) := by tauto
      simp only [List.findSome?_cons, hA, if_neg hnc]
    · have hlen : A.length < (bs ++ [b]).length :=
        length_lt_of_proper_prefix A (bs ++ [b]) hAq hq
      have hqnil : bs ++ [b] ≠ [] := by simp
      have hqbase : bs ++ [b] ≠ base := by
        intro h
        have h1 := hbaseA.length_le
        have h2 := congrArg List.length h
        have h3 := hlen
        simp only [List.length_append, List.length_singleton] at h2 h3
        omega
      have hAbs : A <+: bs := by
        have := prefix_dropLast_of_lt A (bs ++ [b]) hAq hlen
        rwa [List.dropLast_concat] at this
      unfold locateSkipRecord
      rw [ancestorsIncludingBase_cons (bs ++ [b]) base hqbase hqnil,
        List.findSome?_cons, hdesc (bs ++ [b]) hAq hq,
        List.dropLast_concat]
      have hbsbase : bs ≠ base := by
        intro h
        have h1 := hbaseA.length_le
        have h4 := congrArg List.length h
        by_cases hc : A = bs
        · exact hAbase (hc.trans h)
        · have := length_lt_of_proper_prefix A bs hAbs hc
          omega
      have hagree : ∀ x ∈ ancestorsIncludingBase bs base,
          (fun ancestor =>
            match alistLookup M ancestor with
            | none => none
            | some record =>
              if ancestor = base ∧ bs ++ [b] ≠ base then none
              else some record) x =
          (fun ancestor =>
            match alistLookup M ancestor with
            | none => none
            | some record =>
              if ancestor = base ∧ bs ≠ base then none
              else some record) x := by
        intro x _
        by_cases hx : x = base
        · cases hlk : alistLookup M x with
          | none => simp only [hlk]
          | some record =>
            simp only [hlk]
            rw [if_pos ⟨hx, hqbase⟩, if_pos ⟨hx, hbsbase⟩]
        · cases hlk : alistLookup M x with
          | none => simp only [hlk]
          | some record =>
            simp only [hlk]
            rw [if_neg (by tauto), if_neg (by tauto)]
      rw [findSome?_congr_fn _ _ _ hagree]
      exact ih hAbs

/-- C3.  Ancestor dominance of the skip map produced by the dominance pass
(for any outcome of the per-directory sampling): if a strict ancestor `A`
(below the base directory, and not the base itself) holds a registered
`DirectorySkipRecord`, then no strict descendant `B` has an entry, and the
skip record that `_locate_skip_record` resolves — whose reason string the
candidate-removal loop copies into the file-skip record of every removed
candidate under `B` — is exactly A's record, for every directory `q` at or
below `B`.  The pass processes directories in ascending depth order, so
parents are resolved before children. -/
theorem ancestor_dominance (directories : List FsPath) (baseDir : FsPath)
    (entropyRecords : List (FsPath × DirectorySkipRecord))
    (stats : CompressionStats) (A B : FsPath) (rA : DirectorySkipRecord)
    (hAbase : A ≠ baseDir) (hbaseA : baseDir <+: A) (hAB : A <+: B)
    (hABne : A ≠ B)
    (hA : alistLookup
      (dominancePass directories baseDir entropyRecords stats).1 A = some rA) :
    alistLookup
      (dominancePass directories baseDir entropyRecords stats).1 B = none ∧
    ∀ q : FsPath, B <+: q →
      locateSkipRecord q baseDir
        (dominancePass directories baseDir entropyRecords stats).1 =
      some rA := by
  constructor
  · exact dominance_fold_no_descendant baseDir entropyRecords A B rA hAbase
      hbaseA hAB hABne (sortDirectories directories)
      (sortDirectories_pairwise directories) ([], stats) rfl hA
  · intro q hq
    refine locate_finds_registered _ A rA baseDir hAbase hbaseA hA ?_ q
      (hAB.trans hq)
    intro C hAC hACne
    exact dominance_fold_no_descendant baseDir entropyRecords A C rA hAbase
      hbaseA hAC hACne (sortDirectories directories)
      (sortDirectories_pairwise directories) ([], stats) rfl hA

/-- C3, witness: two nested directories below the base both carry entropy
skip records; the pass registers only the parent, and the child and a file
directory below it resolve to the parent's record. -/
theorem ancestor_dominance_witness :
    alistLookup
      (dominancePass [["r", "a", "b"], ["r", "a"]] ["r"]
        [(["r", "a"], demoSkipRecord ["r", "a"]),
         (["r", "a", "b"], demoSkipRecord ["r", "a", "b"])] {}).1
      ["r", "a", "b"] = none ∧
    locateSkipRecord ["r", "a", "b"] ["r"]
      (dominancePass [["r", "a", "b"], ["r", "a"]] ["r"]
        [(["r", "a"], demoSkipRecord ["r", "a"]),
         (["r", "a", "b"], demoSkipRecord ["r", "a", "b"])] {}).1 =
      some (demoSkipRecord ["r", "a"]) := by
  have h := ancestor_dominance [["r", "a", "b"], ["r", "a"]] ["r"]
    [(["r", "a"], demoSkipRecord ["r", "a"]),
     (["r", "a", "b"], demoSkipRecord ["r", "a", "b"])] {}
    ["r", "a"] ["r", "a", "b"] (demoSkipRecord ["r", "a"])
    (by decide) ⟨["a"], rfl⟩ ⟨["b"], rfl⟩ (by decide) rfl
  exact ⟨h.1, h.2 ["r", "a", "b"] List.prefix_rfl⟩

/-- C4.  The claim fails on the code: when the base directory's estimated
savings fall below the threshold, a root-level `DirectorySkipRecord` is
registered (visible in `directory_skips`), but the candidate-removal loop is
only reached when `skipped_directories` is non-empty, so with no
subdirectory skip record the plan is returned unchanged: the candidate whose
parent is the base directory survives and no file skip is recorded. -/
theorem rootSkipRecord_not_applied :
    (filterHighEntropyDirectories (some (79 / 10), 3, 2048)
        (fun _ => .ok none) 4 [(["base", "a.bin"], 2048, "xpress8k")]
        ["base"] 50 {}).map
        (fun r => (r.1, r.2.directorySkips.map DirectorySkipRecord.category,
          r.2.skippedFiles, r.2.fileSkips)) =
      .ok ([(["base", "a.bin"], 2048, "xpress8k")], ["high_entropy"], 0, []) := by
  norm_num [filterHighEntropyDirectories, rootEntropyCheck, savings_from_entropy,
    evaluateDirectoriesParallel, recordSampleStats, dominancePass, sortDirectories,
    insertDir, dominanceStep, hasSkippedAncestor, ancestorsIncludingBase,
    ancestorsGo, alistLookup, appendDirectorySkipRecord, List.dedup, List.foldl,
    Except.map]

/-- C5 counterexample.  With a single worker the fallback branch of
`evaluate_directories_parallel` runs the tasks in a plain loop without any
per-task handler, so one failing directory evaluation aborts the whole
call. -/
theorem sequential_branch_failure_is_fatal :
    evaluateDirectoriesParallel (fun _ => .error "OSError: sampling failed")
      1 [["base", "a"], ["base", "b"]] = .error "OSError: sampling failed" :=
  rfl

/-- C5 amended.  In the thread-pool branch (worker count at least 2 and at
least two directories) a per-directory failure is caught by the per-task
handler: the call succeeds, and the failing directory — like every other —
contributes no skip record and no sample record, so its candidates pass the
entropy filter untouched. -/
theorem pool_branch_catches_task_failures
    (evalDir : FsPath → Except String (Option DirectorySkipRecord))
    (workerCount : ℕ) (directories : List FsPath) (d : FsPath) (msg : String)
    (h1 : 2 ≤ workerCount) (h2 : 2 ≤ directories.length)
    (hd : evalDir d = .error msg) :
    evaluateDirectoriesParallel evalDir workerCount directories =
      .ok ([], []) := by
  unfold evaluateDirectoriesParallel
  rw [if_neg, if_neg]
  · congr 1
    refine foldl_fixed _ _ (fun a b _ => ?_) _
    obtain ⟨e, he⟩ := bind_unpackSkipSamplePair_isError (evalDir b)
    rw [he]
  · rintro (h | h) <;> omega
  · intro h
    rw [h] at h2
    simp at h2

/-- C5 amended, witness. -/
theorem pool_branch_catches_task_failures_witness :
    evaluateDirectoriesParallel
      (fun p => if p = ["base", "a"] then .error "OSError: boom" else .ok none)
      4 [["base", "a"], ["base", "b"]] = .ok ([], []) :=
  pool_branch_catches_task_failures _ 4 [["base", "a"], ["base", "b"]]
    ["base", "a"] "OSError: boom" (by norm_num) (by norm_num) rfl

/-- The probe output is always within [0, 8] bits/byte. -/
theorem compressionProbeEntropy_bounds (compressLen : List ℕ → ℕ)
    (c : List ℕ) : 0 ≤ compressionProbeEntropy compressLen c ∧
      compressionProbeEntropy compressLen c ≤ 8 := by
  unfold compressionProbeEntropy
  by_cases h : c = []
  · rw [if_pos h]
    norm_num
  · rw [if_neg h]
    exact ⟨le_max_left _ _, max_le (by norm_num) (min_le_left _ _)⟩

/-- With a compressor that never reports zero output bytes — true of zlib —
the probe computes exactly the spec's clamp formula. -/
theorem compressionProbeEntropy_eq_spec (compressLen : List ℕ → ℕ)
    (c : List ℕ) (hcl : 1 ≤ compressLen c) (hc : c ≠ []) :
    compressionProbeEntropy compressLen c = specWindowEntropy compressLen c := by
  unfold compressionProbeEntropy specWindowEntropy
  rw [if_neg hc, if_neg (by omega)]
  ring_nf

/-- One window step preserves the loop invariant: scalars are trace sums,
the byte total respects the budget, chunks are non-empty. -/
theorem sampleWindowStep_inv (compressLen : List ℕ → ℕ) (data : List ℕ)
    (byteBudget : ℕ) (acc : ℚ × ℕ × List (List ℕ)) (w : ℕ × ℕ)
    (h1 : acc.1 = (acc.2.2.map
      (fun c => compressionProbeEntropy compressLen c * c.length)).sum)
    (h2 : acc.2.1 = (acc.2.2.map (fun c => c.length)).sum)
    (h3 : acc.2.1 ≤ byteBudget) (h4 : ∀ c ∈ acc.2.2, c ≠ []) :
    (let r := sampleWindowStep compressLen data byteBudget acc w
     r.1 = (r.2.2.map
       (fun c => compressionProbeEntropy compressLen c * c.length)).sum ∧
     r.2.1 = (r.2.2.map (fun c => c.length)).sum ∧
     r.2.1 ≤ byteBudget ∧ ∀ c ∈ r.2.2, c ≠ []) := by
  unfold sampleWindowStep
  dsimp only
  split
  · exact ⟨h1, h2, h3, h4⟩
  · rename_i hb
    split
    · exact ⟨h1, h2, h3, h4⟩
    · rename_i hc
      have hlen : ((data.drop w.1).take
          (min w.2 (byteBudget - acc.2.1))).length ≤ byteBudget - acc.2.1 := by
        rw [List.length_take]
        omega
      refine ⟨?_, ?_, ?_, ?_⟩
      · dsimp only
        rw [h1]
        simp [List.sum_append]
      · dsimp only
        rw [h2]
        simp [List.sum_append]
      · dsimp only
        omega
      · intro c hcmem
        rcases List.mem_append.mp hcmem with hm | hm
        · exact h4 c hm
        · rw [List.mem_singleton.mp hm]
          intro hnil
          rw [hnil] at hc
          exact hc rfl

/-- Invariant of the window loop over any window list. -/
theorem sampleWindowStep_fold_inv (compressLen : List ℕ → ℕ) (data : List ℕ)
    (byteBudget : ℕ) (ws : List (ℕ × ℕ)) :
    ∀ acc : ℚ × ℕ × List (List ℕ),
      acc.1 = (acc.2.2.map
        (fun c => compressionProbeEntropy compressLen c * c.length)).sum →
      acc.2.1 = (acc.2.2.map (fun c => c.length)).sum →
      acc.2.1 ≤ byteBudget →
      (∀ c ∈ acc.2.2, c ≠ []) →
      (let r := ws.foldl (sampleWindowStep compressLen data byteBudget) acc
       r.1 = (r.2.2.map
         (fun c => compressionProbeEntropy compressLen c * c.length)).sum ∧
       r.2.1 = (r.2.2.map (fun c => c.length)).sum ∧
       r.2.1 ≤ byteBudget ∧ ∀ c ∈ r.2.2, c ≠ []) := by
  induction ws with
  | nil =>
    intro acc h1 h2 h3 h4
    exact ⟨h1, h2, h3, h4⟩
  | cons w rest ih =>
    intro acc h1 h2 h3 h4
    rw [List.foldl_cons]
    obtain ⟨g1, g2, g3, g4⟩ :=
      sampleWindowStep_inv compressLen data byteBudget acc w h1 h2 h3 h4
    exact ih _ g1 g2 g3 g4

/-- Per-file sampling: scalars are trace sums, bytes respect the budget,
chunks are non-empty. -/
theorem sampleFileEntropy_spec (compressLen : List ℕ → ℕ) (data : List ℕ)
    (byteBudget : ℕ) :
    (let r := sampleFileEntropy compressLen data byteBudget
     r.1 = (r.2.2.map
       (fun c => compressionProbeEntropy compressLen c * c.length)).sum ∧
     r.2.1 = (r.2.2.map (fun c => c.length)).sum ∧
     r.2.1 ≤ byteBudget ∧ ∀ c ∈ r.2.2, c ≠ []) := by
  unfold sampleFileEntropy
  by_cases h : byteBudget = 0 ∨ data.length = 0
  · rw [if_pos h]
    exact ⟨by simp, by simp, by simp, by simp⟩
  · rw [if_neg h]
    exact sampleWindowStep_fold_inv compressLen data byteBudget _ (0, 0, [])
      (by simp) (by simp) (by simp) (by simp)

/-- One per-file step of the directory loop preserves the invariant. -/
theorem sampleDirStep_inv (compressLen : List ℕ → ℕ)
    (chunkSize maxBytes : ℕ) (acc : ℚ × ℕ × ℕ × List (List ℕ))
    (data : List ℕ)
    (h1 : acc.1 = (acc.2.2.2.map
      (fun c => compressionProbeEntropy compressLen c * c.length)).sum)
    (h2 : acc.2.2.1 = (acc.2.2.2.map (fun c => c.length)).sum)
    (h3 : acc.2.2.1 ≤ maxBytes) (h4 : ∀ c ∈ acc.2.2.2, c ≠ []) :
    (let r := sampleDirStep compressLen chunkSize maxBytes acc data
     r.1 = (r.2.2.2.map
       (fun c => compressionProbeEntropy compressLen c * c.length)).sum ∧
     r.2.2.1 = (r.2.2.2.map (fun c => c.length)).sum ∧
     r.2.2.1 ≤ maxBytes ∧ ∀ c ∈ r.2.2.2, c ≠ []) := by
  obtain ⟨gs1, gs2, gs3, gs4⟩ := sampleFileEntropy_spec compressLen data
    (min chunkSize (maxBytes - acc.2.2.1))
  unfold sampleDirStep
  dsimp only
  split
  · exact ⟨h1, h2, h3, h4⟩
  · rename_i hb
    split
    · exact ⟨h1, h2, h3, h4⟩
    · rename_i hp
      split
      · exact ⟨h1, h2, h3, h4⟩
      · rename_i hz
        refine ⟨?_, ?_, ?_, ?_⟩
        · dsimp only
          rw [h1, gs1]
          simp [List.sum_append]
        · dsimp only
          simp only [List.map_append, List.sum_append]
          omega
        · dsimp only
          have hfb : (sampleFileEntropy compressLen data
              (min chunkSize (maxBytes - acc.2.2.1))).2.1 ≤
              min chunkSize (maxBytes - acc.2.2.1) := gs3
          omega
        · intro c hcmem
          rcases List.mem_append.mp hcmem with hm | hm
          · exact h4 c hm
          · exact gs4 c hm

/-- Invariant of the directory loop over any file list. -/
theorem sampleDirStep_fold_inv (compressLen : List ℕ → ℕ)
    (chunkSize maxBytes : ℕ) (files : List (List ℕ)) :
    ∀ acc : ℚ × ℕ × ℕ × List (List ℕ),
      acc.1 = (acc.2.2.2.map
        (fun c => compressionProbeEntropy compressLen c * c.length)).sum →
      acc.2.2.1 = (acc.2.2.2.map (fun c => c.length)).sum →
      acc.2.2.1 ≤ maxBytes →
      (∀ c ∈ acc.2.2.2, c ≠ []) →
      (let r := files.foldl (sampleDirStep compressLen chunkSize maxBytes) acc
       r.1 = (r.2.2.2.map
         (fun c => compressionProbeEntropy compressLen c * c.length)).sum ∧
       r.2.2.1 = (r.2.2.2.map (fun c => c.length)).sum ∧
       r.2.2.1 ≤ maxBytes ∧ ∀ c ∈ r.2.2.2, c ≠ []) := by
  induction files with
  | nil =>
    intro acc h1 h2 h3 h4
    exact ⟨h1, h2, h3, h4⟩
  | cons data rest ih =>
    intro acc h1 h2 h3 h4
    rw [List.foldl_cons]
    obtain ⟨g1, g2, g3, g4⟩ :=
      sampleDirStep_inv compressLen chunkSize maxBytes acc data h1 h2 h3 h4
    exact ih _ g1 g2 g3 g4

/-- Bounds on the byte-weighted entropy sum over a trace whose window
entropies all lie in [0, 8]. -/
theorem weighted_sum_bounds (tr : List (List ℕ)) (f : List ℕ → ℚ)
    (hf : ∀ c ∈ tr, 0 ≤ f c ∧ f c ≤ 8) :
    0 ≤ (tr.map (fun c => f c * c.length)).sum ∧
    (tr.map (fun c => f c * c.length)).sum ≤
      8 * (tr.map (fun c => (c.length : ℚ))).sum := by
  induction tr with
  | nil => simp
  | cons c rest ih =>
    obtain ⟨h0, h8⟩ := hf c (List.mem_cons_self c rest)
    obtain ⟨ih0, ih8⟩ := ih (fun x hx => hf x (List.mem_cons_of_mem c hx))
    have hlen : (0 : ℚ) ≤ (c.length : ℚ) := Nat.cast_nonneg _
    simp only [List.map_cons, List.sum_cons]
    constructor
    · have := mul_nonneg h0 hlen
      linarith
    · have := mul_le_mul_of_nonneg_right h8 hlen
      linarith

/-- Casting the byte total of a trace into the rationals. -/
theorem trace_length_sum_cast (tr : List (List ℕ)) :
    (((tr.map (fun c => c.length)).sum : ℕ) : ℚ) =
      (tr.map (fun c => (c.length : ℚ))).sum := by
  induction tr with
  | nil => simp
  | cons c rest ih =>
    simp only [List.map_cons, List.sum_cons, Nat.cast_add, ih]

/-- Directory sampling run: the scalar accumulators are the sums over the
concatenated ghost trace, within the byte budget, with non-empty chunks. -/
theorem sampleDirectoryRun_spec (compressLen : List ℕ → ℕ)
    (files : List (List ℕ)) (maxFiles chunkSize maxBytes : ℕ) :
    (sampleDirectoryRun compressLen files maxFiles chunkSize maxBytes).1 =
      ((sampledWindowChunks compressLen files maxFiles chunkSize maxBytes).map
        (fun c => compressionProbeEntropy compressLen c * c.length)).sum ∧
    (sampleDirectoryRun compressLen files maxFiles chunkSize maxBytes).2.2.1 =
      ((sampledWindowChunks compressLen files maxFiles chunkSize maxBytes).map
        (fun c => c.length)).sum ∧
    (sampleDirectoryRun compressLen files maxFiles chunkSize
      maxBytes).2.2.1 ≤ maxBytes ∧
    ∀ c ∈ sampledWindowChunks compressLen files maxFiles chunkSize maxBytes,
      c ≠ [] := by
  unfold sampledWindowChunks sampleDirectoryRun
  by_cases hg : maxFiles = 0 ∨ maxBytes = 0
  · rw [if_pos hg]
    exact ⟨by simp, by simp, by simp, by simp⟩
  · rw [if_neg hg]
    exact sampleDirStep_fold_inv compressLen chunkSize maxBytes files
      (0, 0, 0, []) (by simp) (by simp) (by simp) (by simp)

/-- C7.  Whenever the sampler returns a non-null average entropy, that
average is the byte-weighted mean of the spec's per-window clamp formula
over all sampled windows, it lies in [0, 8], and the total sampled bytes
never exceed the byte budget (stated for any compressor reporting at least
one output byte, as zlib does). -/
theorem sampler_weighted_average (compressLen : List ℕ → ℕ)
    (hcl : ∀ d, 1 ≤ compressLen d) (files : List (List ℕ))
    (maxFiles chunkSize maxBytes : ℕ) (avg : ℚ) (sf sb : ℕ)
    (h : sampleDirectoryEntropy compressLen files maxFiles chunkSize maxBytes =
      (some avg, sf, sb)) :
    avg = ((sampledWindowChunks compressLen files maxFiles chunkSize
        maxBytes).map (fun c => specWindowEntropy compressLen c * c.length)).sum /
      ((sampledWindowChunks compressLen files maxFiles chunkSize
        maxBytes).map (fun c => (c.length : ℚ))).sum ∧
    sb = ((sampledWindowChunks compressLen files maxFiles chunkSize
        maxBytes).map (fun c => c.length)).sum ∧
    0 ≤ avg ∧ avg ≤ 8 ∧ sb ≤ maxBytes ∧ 0 < sb := by
  obtain ⟨h1, h2, h3, h4⟩ :=
    sampleDirectoryRun_spec compressLen files maxFiles chunkSize maxBytes
  by_cases hz :
      (sampleDirectoryRun compressLen files maxFiles chunkSize maxBytes).2.2.1 = 0
  · exfalso
    simp only [sampleDirectoryEntropy] at h
    rw [if_pos hz] at h
    exact Option.noConfusion (congrArg Prod.fst h)
  · simp only [sampleDirectoryEntropy] at h
    rw [if_neg hz] at h
    rw [Prod.mk.injEq, Prod.mk.injEq] at h
    obtain ⟨havg0, hsf, hsb⟩ := h
    have havg := Option.some.inj havg0
    have hmap : (sampledWindowChunks compressLen files maxFiles chunkSize
        maxBytes).map
          (fun c => compressionProbeEntropy compressLen c * c.length) =
        (sampledWindowChunks compressLen files maxFiles chunkSize maxBytes).map
          (fun c => specWindowEntropy compressLen c * c.length) := by
      refine List.map_congr_left (fun c hc => ?_)
      rw [compressionProbeEntropy_eq_spec compressLen c (hcl c) (h4 c hc)]
    have hcast : ((sampleDirectoryRun compressLen files maxFiles chunkSize
        maxBytes).2.2.1 : ℚ) =
        ((sampledWindowChunks compressLen files maxFiles chunkSize
          maxBytes).map (fun c => (c.length : ℚ))).sum := by
      rw [h2]
      exact trace_length_sum_cast _
    have hspecbounds : ∀ c ∈ sampledWindowChunks compressLen files maxFiles
        chunkSize maxBytes, 0 ≤ specWindowEntropy compressLen c ∧
        specWindowEntropy compressLen c ≤ 8 := by
      intro c _
      unfold specWindowEntropy
      exact ⟨le_max_left _ _, max_le (by norm_num) (min_le_left _ _)⟩
    obtain ⟨hS0, hS8⟩ := weighted_sum_bounds _ _ hspecbounds
    have hBpos : (0 : ℚ) <
        ((sampledWindowChunks compressLen files maxFiles chunkSize
          maxBytes).map (fun c => (c.length : ℚ))).sum := by
      rw [← hcast]
      exact Nat.cast_pos.mpr (Nat.pos_of_ne_zero hz)
    have havg2 : avg =
        ((sampledWindowChunks compressLen files maxFiles chunkSize
          maxBytes).map
          (fun c => specWindowEntropy compressLen c * c.length)).sum /
        ((sampledWindowChunks compressLen files maxFiles chunkSize
          maxBytes).map (fun c => (c.length : ℚ))).sum := by
      rw [← havg, h1, hcast, hmap]
    refine ⟨havg2, ?_, ?_, ?_, ?_, ?_⟩
    · rw [← hsb]
      exact h2
    · rw [havg2]
      exact div_nonneg hS0 (le_of_lt hBpos)
    · rw [havg2]
      rw [div_le_iff₀ hBpos]
      calc ((sampledWindowChunks compressLen files maxFiles chunkSize
            maxBytes).map
            (fun c => specWindowEntropy compressLen c * c.length)).sum ≤
          8 * ((sampledWindowChunks compressLen files maxFiles chunkSize
            maxBytes).map (fun c => (c.length : ℚ))).sum := hS8
        _ = _ := by ring
    · rw [← hsb]
      exact h3
    · rw [← hsb]
      exact Nat.pos_of_ne_zero hz

/-- C7, witness: a selection of one 100-byte file under a probe reporting
256 compressed bytes. -/
theorem sampler_weighted_average_witness :
    (8 : ℚ) = ((sampledWindowChunks (fun _ => 256) [List.replicate 100 7] 50
        65536 (4 * 1024 * 1024)).map
        (fun c => specWindowEntropy (fun _ => 256) c * c.length)).sum /
      ((sampledWindowChunks (fun _ => 256) [List.replicate 100 7] 50 65536
        (4 * 1024 * 1024)).map (fun c => (c.length : ℚ))).sum ∧
    100 = ((sampledWindowChunks (fun _ => 256) [List.replicate 100 7] 50 65536
        (4 * 1024 * 1024)).map (fun c => c.length)).sum ∧
    (0 : ℚ) ≤ 8 ∧ (8 : ℚ) ≤ 8 ∧ 100 ≤ 4 * 1024 * 1024 ∧ 0 < 100 :=
  sampler_weighted_average (fun _ => 256) (fun _ => by norm_num)
    [List.replicate 100 7] 50 65536 (4 * 1024 * 1024) 8 1 100
    (by norm_num [sampleDirectoryEntropy, sampleDirectoryRun, sampleDirStep,
      sampleFileEntropy, sampleWindowStep, deriveWindowSize, planSampleWindows,
      dedupClampWindows, compressionProbeEntropy, TARGET_WINDOW_SIZE,
      MAX_SAMPLE_WINDOWS, List.foldl])

/-- C8.  The claim fails on the code: `compress_directory` accepts no
`debug_scan_all` parameter at all, while `main.run_compression`
unconditionally passes that keyword, so the call raises `TypeError` before
any planning happens — there is no bypass path. -/
theorem debugScanAll_call_raises :
    pythonKwargsCall compressDirectoryParams runCompressionKwargs =
      .error "TypeError: got an unexpected keyword argument" ∧
    "debug_scan_all" ∉ compressDirectoryParams := by
  refine ⟨rfl, ?_⟩
  decide

/-- C9.  The savings estimator is monotonically non-increasing in the
average entropy and its output always lies in [0, 90]. -/
theorem savings_from_entropy_monotone_range (e1 e2 : ℚ) (h : e1 < e2) :
    savings_from_entropy e2 ≤ savings_from_entropy e1 ∧
    (∀ e : ℚ, 0 ≤ savings_from_entropy e ∧ savings_from_entropy e ≤ 90) := by
  constructor
  · unfold savings_from_entropy
    refine max_le_max le_rfl (min_le_min le_rfl ?_)
    linarith
  · intro e
    unfold savings_from_entropy
    exact ⟨le_max_left _ _, max_le (by norm_num) (min_le_left _ _)⟩

/-- C9, witness. -/
theorem savings_from_entropy_monotone_range_witness :
    savings_from_entropy 8 ≤ savings_from_entropy 2 ∧
    (∀ e : ℚ, 0 ≤ savings_from_entropy e ∧ savings_from_entropy e ≤ 90) :=
  savings_from_entropy_monotone_range 2 8 (by norm_num)

/-- Bool-level characterisation of the path-extension test. -/
theorem isUnder_iff (d q : FsPath) : isUnder d q = true ↔ d <+: q := by
  unfold isUnder
  exact List.isPrefixOf_iff_prefix

mutual

/-- Paths of files in a subtree extend the subtree root properly. -/
theorem subtreeFiles_shape (p : FsPath) (t : FsTree) :
    ∀ f ∈ subtreeFiles p t, ∃ suf, suf ≠ [] ∧ f.1 = p ++ suf := by
  match t with
  | .node files children =>
    intro f hf
    rw [subtreeFiles] at hf
    rcases List.mem_append.mp hf with hm | hm
    · obtain ⟨x, _, hfx⟩ := List.mem_map.mp hm
      refine ⟨[x.1], by simp, ?_⟩
      rw [← hfx]
    · obtain ⟨c, _, suf, hsuf⟩ := subtreeFilesChildren_shape p children f hm
      refine ⟨c.1 :: suf, by simp, ?_⟩
      rw [hsuf]

/-- Paths of files below a child list start with that child's name. -/
theorem subtreeFilesChildren_shape (p : FsPath) (cs : List (String × FsTree)) :
    ∀ f ∈ subtreeFilesChildren p cs,
      ∃ c ∈ cs, ∃ suf, f.1 = p ++ (c.1 :: suf) := by
  match cs with
  | [] =>
    intro f hf
    rw [subtreeFilesChildren] at hf
    exact absurd hf (List.not_mem_nil f)
  | c :: rest =>
    intro f hf
    rw [subtreeFilesChildren] at hf
    rcases List.mem_append.mp hf with hm | hm
    · obtain ⟨suf, hsuf, hp⟩ := subtreeFiles_shape (p ++ [c.1]) c.2 f hm
      refine ⟨c, List.mem_cons_self c rest, suf, ?_⟩
      rw [hp, List.append_assoc]
      rfl
    · obtain ⟨c2, hc2, suf, hsuf⟩ := subtreeFilesChildren_shape p rest f hm
      exact ⟨c2, List.mem_cons_of_mem c hc2, suf, hsuf⟩

end

/-- Directory enumeration over a child list, element-wise. -/
theorem dirsOfChildren_mem (p : FsPath) (cs : List (String × FsTree))
    (q : FsPath) (s : FsTree) :
    (q, s) ∈ dirsOfChildren p cs ↔
      ∃ c ∈ cs, (q, s) ∈ dirsOf (p ++ [c.1]) c.2 := by
  induction cs with
  | nil =>
    rw [dirsOfChildren]
    simp
  | cons c rest ih =>
    rw [dirsOfChildren, List.mem_append, ih]
    constructor
    · rintro (hm | ⟨c2, hc2, hm⟩)
      · exact ⟨c, List.mem_cons_self c rest, hm⟩
      · exact ⟨c2, List.mem_cons_of_mem c hc2, hm⟩
    · rintro ⟨c2, hc2, hm⟩
      rcases List.mem_cons.mp hc2 with h | h
      · subst h
        exact Or.inl hm
      · exact Or.inr ⟨c2, h, hm⟩

/-- Case split for membership in the directory enumeration of a node. -/
theorem dirsOf_mem_cases (p q : FsPath) (s : FsTree)
    (files : List (String × ℕ)) (children : List (String × FsTree)) :
    (q, s) ∈ dirsOf p (.node files children) ↔
      (q = p ∧ s = FsTree.node files children) ∨
      ∃ c ∈ children, (q, s) ∈ dirsOf (p ++ [c.1]) c.2 := by
  rw [dirsOf, List.mem_cons, dirsOfChildren_mem, Prod.mk.injEq]

mutual

/-- Directory paths extend the enumeration root. -/
theorem dirsOf_shape (p : FsPath) (t : FsTree) :
    ∀ q s, (q, s) ∈ dirsOf p t → q = p ∨ ∃ suf, suf ≠ [] ∧ q = p ++ suf := by
  match t with
  | .node files children =>
    intro q s hm
    rw [dirsOf] at hm
    rcases List.mem_cons.mp hm with h | h
    · exact Or.inl (congrArg Prod.fst h)
    · exact Or.inr (dirsOfChildren_shape p children q s h)

/-- Directory paths below a child list are proper extensions. -/
theorem dirsOfChildren_shape (p : FsPath) (cs : List (String × FsTree)) :
    ∀ q s, (q, s) ∈ dirsOfChildren p cs →
      ∃ suf, suf ≠ [] ∧ q = p ++ suf := by
  match cs with
  | [] =>
    intro q s hm
    rw [dirsOfChildren] at hm
    exact absurd hm (List.not_mem_nil _)
  | c :: rest =>
    intro q s hm
    rw [dirsOfChildren] at hm
    rcases List.mem_append.mp hm with h | h
    · rcases dirsOf_shape (p ++ [c.1]) c.2 q s h with h2 | ⟨suf, _, h2⟩
      · exact ⟨[c.1], by simp, h2⟩
      · refine ⟨c.1 :: suf, by simp, ?_⟩
        rw [h2, List.append_assoc]
        rfl
    · exact dirsOfChildren_shape p rest q s h

end

/-- The enumeration root path only carries the whole tree. -/
theorem dirsOf_self (p : FsPath) (t s : FsTree) (h : (p, s) ∈ dirsOf p t) :
    s = t := by
  match t with
  | .node files children =>
    rw [dirsOf] at h
    rcases List.mem_cons.mp h with h | h
    · exact congrArg Prod.snd h
    · exfalso
      obtain ⟨suf, hsuf, hps⟩ := dirsOfChildren_shape p children p s h
      have hlen := congrArg List.length hps
      rw [List.length_append] at hlen
      exact hsuf (List.length_eq_zero.mp (by omega))

/-- A directory below child `dc` has the child's name as its next path
component. -/
theorem dirsOf_child_shape (p : FsPath) (dc : String × FsTree)
    (dpath : FsPath) (dt : FsTree)
    (hmem : (dpath, dt) ∈ dirsOf (p ++ [dc.1]) dc.2) :
    ∃ tail, dpath = p ++ dc.1 :: tail := by
  rcases dirsOf_shape (p ++ [dc.1]) dc.2 dpath dt hmem with h | ⟨suf, _, h⟩
  · exact ⟨[], h⟩
  · refine ⟨suf, ?_⟩
    rw [h, List.append_assoc]
    rfl

/-- Distinct next components exclude the path-extension relation. -/
theorem not_under_other (p : FsPath) (a b : String) (tail suf : FsPath)
    (hne : a ≠ b) : ¬(isUnder (p ++ a :: tail) (p ++ b :: suf) = true) := by
  rw [isUnder_iff, List.prefix_append_right_inj, List.cons_prefix_cons]
  rintro ⟨h, _⟩
  exact hne h

/-- A sublist of a list with no matching element filters to nothing. -/
theorem filter_of_subset_nil {α : Type} (l₁ l₂ : List α) (pr : α → Bool)
    (hsub : ∀ f ∈ l₁, f ∈ l₂) (h2 : l₂.filter pr = []) :
    l₁.filter pr = [] :=
  List.filter_eq_nil_iff.mpr
    (fun a ha => List.filter_eq_nil_iff.mp h2 a (hsub a ha))

/-- Subtree files of children with names other than the next component of
`dpath` are not under `dpath`. -/
theorem filter_children_other_nil (p : FsPath) (cs : List (String × FsTree))
    (dpath : FsPath) (a : String) (tail : FsPath)
    (hdshape : dpath = p ++ a :: tail) (hnot : a ∉ cs.map Prod.fst) :
    (subtreeFilesChildren p cs).filter (fun f => isUnder dpath f.1) = [] := by
  refine List.filter_eq_nil_iff.mpr ?_
  intro f hf
  obtain ⟨c2, hc2, suf, hps⟩ := subtreeFilesChildren_shape p cs f hf
  rw [hps, hdshape]
  refine not_under_other p a c2.1 tail suf ?_
  intro h
  exact hnot (h ▸ List.mem_map_of_mem Prod.fst hc2)

/-- Subtree files of a single child with a different name are not under
`dpath`. -/
theorem filter_subtree_other_nil (p : FsPath) (c : String × FsTree)
    (dpath : FsPath) (a : String) (tail : FsPath)
    (hdshape : dpath = p ++ a :: tail) (hne : a ≠ c.1) :
    (subtreeFiles (p ++ [c.1]) c.2).filter (fun f => isUnder dpath f.1) = [] := by
  refine List.filter_eq_nil_iff.mpr ?_
  intro f hf
  obtain ⟨suf, _, hps⟩ := subtreeFiles_shape (p ++ [c.1]) c.2 f hf
  rw [hps, List.append_assoc, hdshape]
  exact not_under_other p a c.1 tail suf hne

/-- Direct files of a node are not under a directory strictly below one of
its children (their single extra component is a file name, not the child's
directory name). -/
theorem filter_files_nil (p : FsPath) (files : List (String × ℕ))
    (children : List (String × FsTree)) (dpath : FsPath)
    (dc : String × FsTree) (hdc : dc ∈ children) (tail : FsPath)
    (hdshape : dpath = p ++ dc.1 :: tail)
    (hnames : (files.map Prod.fst ++ children.map Prod.fst).Nodup) :
    (files.map (fun f => (p ++ [f.1], f.2))).filter
      (fun f => isUnder dpath f.1) = [] := by
  refine List.filter_eq_nil_iff.mpr ?_
  intro f hf
  obtain ⟨x, hx, hfx⟩ := List.mem_map.mp hf
  intro hu
  rw [← hfx] at hu
  have hu2 : (p ++ dc.1 :: tail) <+: p ++ [x.1] := by
    rw [← hdshape]
    exact (isUnder_iff _ _).mp hu
  rw [List.prefix_append_right_inj] at hu2
  rw [show [x.1] = x.1 :: ([] : List String) from rfl,
    List.cons_prefix_cons] at hu2
  obtain ⟨heq, _⟩ := hu2
  have hdisj := List.disjoint_of_nodup_append hnames
  exact hdisj (List.mem_map_of_mem Prod.fst hx)
    (heq ▸ List.mem_map_of_mem Prod.fst hdc)

mutual

/-- Restricting a subtree enumeration to the paths under one of its
directories yields exactly that directory's subtree enumeration. -/
theorem subtree_filter_eq (p : FsPath) (t : FsTree) :
    ∀ dpath dt, NodupNames t → (dpath, dt) ∈ dirsOf p t →
      (subtreeFiles p t).filter (fun f => isUnder dpath f.1) =
        subtreeFiles dpath dt := by
  match t with
  | .node files children =>
    intro dpath dt hnn hmem
    cases hnn with
    | node _ _ hnames hchildren =>
      rcases (dirsOf_mem_cases p dpath dt files children).mp hmem with
        ⟨hq, hs⟩ | ⟨dc, hdc, hmem2⟩
      · subst hq
        subst hs
        refine List.filter_eq_self.mpr ?_
        intro f hf
        obtain ⟨suf, _, hps⟩ := subtreeFiles_shape dpath _ f hf
        rw [isUnder_iff, hps]
        exact List.prefix_append dpath suf
      · obtain ⟨tail, hdshape⟩ := dirsOf_child_shape p dc dpath dt hmem2
        rw [subtreeFiles, List.filter_append,
          filter_files_nil p files children dpath dc hdc tail hdshape hnames,
          List.nil_append]
        exact subtreeChildren_filter_eq p children dpath dt dc hdc hmem2
          ((List.nodup_append.mp hnames).2.1) hchildren

/-- Child-list version of `subtree_filter_eq`. -/
theorem subtreeChildren_filter_eq (p : FsPath) (cs : List (String × FsTree)) :
    ∀ dpath dt dc, dc ∈ cs → (dpath, dt) ∈ dirsOf (p ++ [dc.1]) dc.2 →
      (cs.map Prod.fst).Nodup → (∀ x ∈ cs, NodupNames x.2) →
      (subtreeFilesChildren p cs).filter (fun f => isUnder dpath f.1) =
        subtreeFiles dpath dt := by
  match cs with
  | [] =>
    intro dpath dt dc hdc _ _ _
    exact absurd hdc (List.not_mem_nil dc)
  | c :: rest =>
    intro dpath dt dc hdc hmem hnames hnn
    obtain ⟨tail, hdshape⟩ := dirsOf_child_shape p dc dpath dt hmem
    rw [List.map_cons, List.nodup_cons] at hnames
    rw [subtreeFilesChildren, List.filter_append]
    by_cases hname : c.1 = dc.1
    · have hdceq : dc = c := by
        rcases List.mem_cons.mp hdc with h | h
        · exact h
        · exact absurd (hname ▸ List.mem_map_of_mem Prod.fst h) hnames.1
      rw [hdceq] at hmem hdshape
      rw [subtree_filter_eq (p ++ [c.1]) c.2 dpath dt
        (hnn c (List.mem_cons_self c rest)) hmem]
      rw [filter_children_other_nil p rest dpath c.1 tail hdshape hnames.1,
        List.append_nil]
    · have hdcrest : dc ∈ rest := by
        rcases List.mem_cons.mp hdc with h | h
        · exact absurd (congrArg Prod.fst h.symm) hname
        · exact h
      rw [filter_subtree_other_nil p c dpath dc.1 tail hdshape
        (fun h => hname h.symm), List.nil_append]
      exact subtreeChildren_filter_eq p rest dpath dt dc hdcrest hmem
        hnames.2 (fun x hx => hnn x (List.mem_cons_of_mem c hx))

end

/-- Defining equation of the walker's child loop on the empty list. -/
theorem walkChildren_nil (policy : FsPath → Bool) (p : FsPath)
    (acc : List (FsPath × ℕ) × List (FsPath × ℕ)) :
    walkChildren policy p [] acc = acc := by
  rw [walkChildren]

/-- Defining equation of the walker's child loop on a cons cell, with the
descent expressed through `walkAux`. -/
theorem walkChildren_cons (policy : FsPath → Bool) (p : FsPath)
    (c : String × FsTree) (rest : List (String × FsTree))
    (acc : List (FsPath × ℕ) × List (FsPath × ℕ)) :
    walkChildren policy p (c :: rest) acc =
      if policy (p ++ [c.1]) then
        walkChildren policy p rest
          (acc.1, acc.2 ++ subtreeFiles (p ++ [c.1]) c.2)
      else
        walkChildren policy p rest
          (acc.1 ++ (walkAux policy (p ++ [c.1]) c.2).1,
           acc.2 ++ (walkAux policy (p ++ [c.1]) c.2).2) := by
  rw [walkChildren]
  by_cases hp : policy (p ++ [c.1])
  · rw [if_pos hp, if_pos hp]
  · rw [if_neg hp, if_neg hp]
    obtain ⟨n, t2⟩ := c
    obtain ⟨fs, cs⟩ := t2
    rfl

/-- Defining equation of the walker on a node. -/
theorem walkAux_node (policy : FsPath → Bool) (p : FsPath)
    (files : List (String × ℕ)) (children : List (String × FsTree)) :
    walkAux policy p (.node files children) =
      walkChildren policy p children
        (files.map (fun f => (p ++ [f.1], f.2)), []) := rfl

/-- Accumulator decomposition of the walker's child loop. -/
theorem walkChildren_acc (policy : FsPath → Bool) (p : FsPath)
    (cs : List (String × FsTree)) :
    ∀ acc, walkChildren policy p cs acc =
      (acc.1 ++ (walkChildren policy p cs ([], [])).1,
       acc.2 ++ (walkChildren policy p cs ([], [])).2) := by
  induction cs with
  | nil =>
    intro acc
    rw [walkChildren_nil, walkChildren_nil]
    simp
  | cons c rest ih =>
    intro acc
    rw [walkChildren_cons, walkChildren_cons]
    by_cases hp : policy (p ++ [c.1])
    · rw [if_pos hp, if_pos hp, ih (acc.1, acc.2 ++ subtreeFiles (p ++ [c.1]) c.2),
        ih (([] : List (FsPath × ℕ)), [] ++ subtreeFiles (p ++ [c.1]) c.2)]
      simp [List.append_assoc]
    · rw [if_neg hp, if_neg hp,
        ih (acc.1 ++ (walkAux policy (p ++ [c.1]) c.2).1,
            acc.2 ++ (walkAux policy (p ++ [c.1]) c.2).2),
        ih (([] : List (FsPath × ℕ)) ++ (walkAux policy (p ++ [c.1]) c.2).1,
            ([] : List (FsPath × ℕ)) ++ (walkAux policy (p ++ [c.1]) c.2).2)]
      simp [List.append_assoc]

mutual

/-- Everything the walker emits at a node lies in that node's subtree
enumeration. -/
theorem walkAux_subsets (policy : FsPath → Bool) (p : FsPath) (t : FsTree) :
    (∀ f ∈ (walkAux policy p t).1, f ∈ subtreeFiles p t) ∧
    (∀ f ∈ (walkAux policy p t).2, f ∈ subtreeFiles p t) := by
  match t with
  | .node files children =>
    rw [walkAux_node, walkChildren_acc policy p children
      (files.map (fun f => (p ++ [f.1], f.2)), []), subtreeFiles]
    obtain ⟨h1, h2⟩ := walkChildren_subsets policy p children
    constructor
    · intro f hf
      rcases List.mem_append.mp hf with hm | hm
      · exact List.mem_append.mpr (Or.inl hm)
      · exact List.mem_append.mpr (Or.inr (h1 f hm))
    · intro f hf
      rcases List.mem_append.mp hf with hm | hm
      · exact absurd hm (List.not_mem_nil f)
      · exact List.mem_append.mpr (Or.inr (h2 f hm))

/-- Child-loop version of `walkAux_subsets`. -/
theorem walkChildren_subsets (policy : FsPath → Bool) (p : FsPath)
    (cs : List (String × FsTree)) :
    (∀ f ∈ (walkChildren policy p cs ([], [])).1,
      f ∈ subtreeFilesChildren p cs) ∧
    (∀ f ∈ (walkChildren policy p cs ([], [])).2,
      f ∈ subtreeFilesChildren p cs) := by
  match cs with
  | [] =>
    rw [walkChildren_nil]
    exact ⟨fun f hf => absurd hf (List.not_mem_nil f),
           fun f hf => absurd hf (List.not_mem_nil f)⟩
  | c :: rest =>
    obtain ⟨hr1, hr2⟩ := walkChildren_subsets policy p rest
    rw [walkChildren_cons]
    by_cases hp : policy (p ++ [c.1])
    · rw [if_pos hp, walkChildren_acc policy p rest
        (([] : List (FsPath × ℕ)), [] ++ subtreeFiles (p ++ [c.1]) c.2),
        subtreeFilesChildren]
      constructor
      · intro f hf
        rcases List.mem_append.mp hf with hm | hm
        · exact absurd hm (List.not_mem_nil f)
        · exact List.mem_append.mpr (Or.inr (hr1 f hm))
      · intro f hf
        rcases List.mem_append.mp hf with hm | hm
        · rcases List.mem_append.mp hm with hm2 | hm2
          · exact absurd hm2 (List.not_mem_nil f)
          · exact List.mem_append.mpr (Or.inl hm2)
        · exact List.mem_append.mpr (Or.inr (hr2 f hm))
    · obtain ⟨hw1, hw2⟩ := walkAux_subsets policy (p ++ [c.1]) c.2
      rw [if_neg hp, walkChildren_acc policy p rest
        (([] : List (FsPath × ℕ)) ++ (walkAux policy (p ++ [c.1]) c.2).1,
         ([] : List (FsPath × ℕ)) ++ (walkAux policy (p ++ [c.1]) c.2).2),
        subtreeFilesChildren]
      constructor
      · intro f hf
        rcases List.mem_append.mp hf with hm | hm
        · rcases List.mem_append.mp hm with hm2 | hm2
          · exact absurd hm2 (List.not_mem_nil f)
          · exact List.mem_append.mpr (Or.inl (hw1 f hm2))
        · exact List.mem_append.mpr (Or.inr (hr1 f hm))
      · intro f hf
        rcases List.mem_append.mp hf with hm | hm
        · rcases List.mem_append.mp hm with hm2 | hm2
          · exact absurd hm2 (List.not_mem_nil f)
          · exact List.mem_append.mpr (Or.inl (hw2 f hm2))
        · exact List.mem_append.mpr (Or.inr (hr2 f hm))

end

/-- First stream of the child loop after a skipped head child. -/
theorem walkChildren_cons_skip1 (policy : FsPath → Bool) (p : FsPath)
    (c : String × FsTree) (rest : List (String × FsTree))
    (hp : policy (p ++ [c.1]) = true) :
    (walkChildren policy p (c :: rest) ([], [])).1 =
      (walkChildren policy p rest ([], [])).1 := by
  rw [walkChildren_cons, if_pos hp, walkChildren_acc policy p rest]
  simp

/-- Second stream of the child loop after a skipped head child: the head's
whole subtree, then the rest of the loop. -/
theorem walkChildren_cons_skip2 (policy : FsPath → Bool) (p : FsPath)
    (c : String × FsTree) (rest : List (String × FsTree))
    (hp : policy (p ++ [c.1]) = true) :
    (walkChildren policy p (c :: rest) ([], [])).2 =
      subtreeFiles (p ++ [c.1]) c.2 ++
        (walkChildren policy p rest ([], [])).2 := by
  rw [walkChildren_cons, if_pos hp, walkChildren_acc policy p rest]
  simp

/-- First stream of the child loop after an admitted head child: the
head's walk, then the rest of the loop. -/
theorem walkChildren_cons_descend1 (policy : FsPath → Bool) (p : FsPath)
    (c : String × FsTree) (rest : List (String × FsTree))
    (hp : ¬policy (p ++ [c.1]) = true) :
    (walkChildren policy p (c :: rest) ([], [])).1 =
      (walkAux policy (p ++ [c.1]) c.2).1 ++
        (walkChildren policy p rest ([], [])).1 := by
  rw [walkChildren_cons, if_neg hp, walkChildren_acc policy p rest]
  simp

/-- Second stream of the child loop after an admitted head child. -/
theorem walkChildren_cons_descend2 (policy : FsPath → Bool) (p : FsPath)
    (c : String × FsTree) (rest : List (String × FsTree))
    (hp : ¬policy (p ++ [c.1]) = true) :
    (walkChildren policy p (c :: rest) ([], [])).2 =
      (walkAux policy (p ++ [c.1]) c.2).2 ++
        (walkChildren policy p rest ([], [])).2 := by
  rw [walkChildren_cons, if_neg hp, walkChildren_acc policy p rest]
  simp

/-- First stream of the walker at a node: direct files, then the child
loop. -/
theorem walkAux_decomp1 (policy : FsPath → Bool) (p : FsPath)
    (files : List (String × ℕ)) (children : List (String × FsTree)) :
    (walkAux policy p (.node files children)).1 =
      files.map (fun f => (p ++ [f.1], f.2)) ++
        (walkChildren policy p children ([], [])).1 := by
  rw [walkAux_node, walkChildren_acc policy p children]

/-- Second stream of the walker at a node: the child loop only. -/
theorem walkAux_decomp2 (policy : FsPath → Bool) (p : FsPath)
    (files : List (String × ℕ)) (children : List (String × FsTree)) :
    (walkAux policy p (.node files children)).2 =
      (walkChildren policy p children ([], [])).2 := by
  rw [walkAux_node, walkChildren_acc policy p children]
  simp

mutual

/-- Walking an admitted directory at `p`: if the policy skips a strictly
deeper directory `dpath` registered in the subtree, no yielded file is
under `dpath` and the pruned-file callback stream restricted to `dpath` is
exactly that directory's subtree enumeration, each file once. -/
theorem walkAux_filter (policy : FsPath → Bool) (p : FsPath) (t : FsTree) :
    ∀ dpath dt, policy dpath = true → dpath ≠ p → NodupNames t →
      (dpath, dt) ∈ dirsOf p t →
      (walkAux policy p t).1.filter (fun f => isUnder dpath f.1) = [] ∧
      (walkAux policy p t).2.filter (fun f => isUnder dpath f.1) =
        subtreeFiles dpath dt := by
  match t with
  | .node files children =>
    intro dpath dt hdp hne hnn hmem
    cases hnn with
    | node _ _ hnames hchildren =>
      rcases (dirsOf_mem_cases p dpath dt files children).mp hmem with
        ⟨hq, _⟩ | ⟨dc, hdc, hmem2⟩
      · exact absurd hq hne
      · obtain ⟨tail, hdshape⟩ := dirsOf_child_shape p dc dpath dt hmem2
        obtain ⟨hc1, hc2⟩ := walkChildren_filter policy p children dpath dt dc
          hdp hdc hmem2 ((List.nodup_append.mp hnames).2.1) hchildren
        constructor
        · rw [walkAux_decomp1, List.filter_append, hc1, List.append_nil]
          exact filter_files_nil p files children dpath dc hdc tail hdshape
            hnames
        · rw [walkAux_decomp2]
          exact hc2

/-- Child-loop version of `walkAux_filter`: the skipped directory `dpath`
is registered below the child `dc` of the current directory. -/
theorem walkChildren_filter (policy : FsPath → Bool) (p : FsPath)
    (cs : List (String × FsTree)) :
    ∀ dpath dt dc, policy dpath = true → dc ∈ cs →
      (dpath, dt) ∈ dirsOf (p ++ [dc.1]) dc.2 →
      (cs.map Prod.fst).Nodup → (∀ x ∈ cs, NodupNames x.2) →
      (walkChildren policy p cs ([], [])).1.filter
        (fun f => isUnder dpath f.1) = [] ∧
      (walkChildren policy p cs ([], [])).2.filter
        (fun f => isUnder dpath f.1) = subtreeFiles dpath dt := by
  match cs with
  | [] =>
    intro dpath dt dc _ hdc _ _ _
    exact absurd hdc (List.not_mem_nil dc)
  | c :: rest =>
    intro dpath dt dc hdp hdc hmem hnames hnn
    obtain ⟨tail, hdshape⟩ := dirsOf_child_shape p dc dpath dt hmem
    rw [List.map_cons, List.nodup_cons] at hnames
    by_cases hname : c.1 = dc.1
    · have hdceq : dc = c := by
        rcases List.mem_cons.mp hdc with h | h
        · exact h
        · exact absurd (hname ▸ List.mem_map_of_mem Prod.fst h) hnames.1
      rw [hdceq] at hmem hdshape
      have hrest1 : (walkChildren policy p rest ([], [])).1.filter
          (fun f => isUnder dpath f.1) = [] :=
        filter_of_subset_nil _ _ _ (walkChildren_subsets policy p rest).1
          (filter_children_other_nil p rest dpath c.1 tail hdshape hnames.1)
      have hrest2 : (walkChildren policy p rest ([], [])).2.filter
          (fun f => isUnder dpath f.1) = [] :=
        filter_of_subset_nil _ _ _ (walkChildren_subsets policy p rest).2
          (filter_children_other_nil p rest dpath c.1 tail hdshape hnames.1)
      by_cases hp : policy (p ++ [c.1])
      · constructor
        · rw [walkChildren_cons_skip1 policy p c rest hp]
          exact hrest1
        · rw [walkChildren_cons_skip2 policy p c rest hp, List.filter_append,
            hrest2, List.append_nil]
          exact subtree_filter_eq (p ++ [c.1]) c.2 dpath dt
            (hnn c (List.mem_cons_self c rest)) hmem
      · have hne : dpath ≠ p ++ [c.1] := by
          intro h
          rw [h] at hdp
          exact hp hdp
        obtain ⟨hw1, hw2⟩ := walkAux_filter policy (p ++ [c.1]) c.2 dpath dt
          hdp hne (hnn c (List.mem_cons_self c rest)) hmem
        constructor
        · rw [walkChildren_cons_descend1 policy p c rest hp,
            List.filter_append, hw1, hrest1, List.append_nil]
        · rw [walkChildren_cons_descend2 policy p c rest hp,
            List.filter_append, hw2, hrest2, List.append_nil]
    · have hdcrest : dc ∈ rest := by
        rcases List.mem_cons.mp hdc with h | h
        · exact absurd (congrArg Prod.fst h.symm) hname
        · exact h
      obtain ⟨hr1, hr2⟩ := walkChildren_filter policy p rest dpath dt dc hdp
        hdcrest hmem hnames.2 (fun x hx => hnn x (List.mem_cons_of_mem c hx))
      have hsub : (subtreeFiles (p ++ [c.1]) c.2).filter
          (fun f => isUnder dpath f.1) = [] :=
        filter_subtree_other_nil p c dpath dc.1 tail hdshape
          (fun h => hname h.symm)
      by_cases hp : policy (p ++ [c.1])
      · constructor
        · rw [walkChildren_cons_skip1 policy p c rest hp]
          exact hr1
        · rw [walkChildren_cons_skip2 policy p c rest hp, List.filter_append,
            hsub, List.nil_append]
          exact hr2
      · have hwsub1 : (walkAux policy (p ++ [c.1]) c.2).1.filter
            (fun f => isUnder dpath f.1) = [] :=
          filter_of_subset_nil _ _ _
            (walkAux_subsets policy (p ++ [c.1]) c.2).1 hsub
        have hwsub2 : (walkAux policy (p ++ [c.1]) c.2).2.filter
            (fun f => isUnder dpath f.1) = [] :=
          filter_of_subset_nil _ _ _
            (walkAux_subsets policy (p ++ [c.1]) c.2).2 hsub
        constructor
        · rw [walkChildren_cons_descend1 policy p c rest hp,
            List.filter_append, hwsub1, hr1, List.append_nil]
        · rw [walkChildren_cons_descend2 policy p c rest hp,
            List.filter_append, hwsub2, List.nil_append]
          exact hr2

end

/-- The scan step adds at most the current file to the candidate list. -/
theorem planScanStep_fst (classify : FsPath → ℕ → Option CompressionDecision)
    (algorithmOf : ℕ → String)
    (acc : List (FsPath × ℕ × String) × CompressionStats) (f : FsPath × ℕ) :
    (planScanStep classify algorithmOf acc f).1 = acc.1 ∨
    (planScanStep classify algorithmOf acc f).1 =
      acc.1 ++ [(f.1, f.2, algorithmOf f.2)] := by
  unfold planScanStep
  rcases classify f.1 f.2 with _ | decision
  · exact Or.inl rfl
  · by_cases hd : decision.shouldCompress
    · refine Or.inr ?_
      simp [hd]
    · refine Or.inl ?_
      simp [hd]

/-- Candidates of the scan fold: already accumulated, or the path of one of
the scanned files. -/
theorem planScan_fold_mem (classify : FsPath → ℕ → Option CompressionDecision)
    (algorithmOf : ℕ → String) :
    ∀ (files : List (FsPath × ℕ))
      (acc : List (FsPath × ℕ × String) × CompressionStats)
      (x : FsPath × ℕ × String),
      x ∈ (files.foldl (planScanStep classify algorithmOf) acc).1 →
      x ∈ acc.1 ∨ ∃ f ∈ files, x.1 = f.1 := by
  intro files
  induction files with
  | nil =>
    intro acc x hx
    exact Or.inl hx
  | cons f fs ih =>
    intro acc x hx
    rw [List.foldl_cons] at hx
    rcases ih (planScanStep classify algorithmOf acc f) x hx with h | ⟨g, hg, hgx⟩
    · rcases planScanStep_fst classify algorithmOf acc f with he | he
      · rw [he] at h
        exact Or.inl h
      · rw [he] at h
        rcases List.mem_append.mp h with h2 | h2
        · exact Or.inl h2
        · refine Or.inr ⟨f, List.mem_cons_self f fs, ?_⟩
          rw [List.mem_singleton.mp h2]
    · exact Or.inr ⟨g, List.mem_cons_of_mem f hg, hgx⟩

/-- Every candidate the scan produces is one of the scanned files. -/
theorem planScan_subset (classify : FsPath → ℕ → Option CompressionDecision)
    (algorithmOf : ℕ → String) (files : List (FsPath × ℕ))
    (stats : CompressionStats) :
    ∀ x ∈ (planScan classify algorithmOf files stats).1,
      ∃ f ∈ files, x.1 = f.1 := by
  intro x hx
  unfold planScan at hx
  rcases planScan_fold_mem classify algorithmOf files ([], stats) x hx with
    h | h
  · exact absurd h (List.not_mem_nil x)
  · exact h

/-- C6.  For a directory the admissibility policy reports as skip
(registered at `dpath` with subtree `dt` in the walked tree), the walker
yields no file under it — so the scan loop of `plan_compression` over the
yielded stream puts no such file in the plan — while the pruned-file
callback stream restricted to that directory is exactly its subtree
enumeration, each file once; hence the pruned bytes reported for it sum to
the subtree's actual file sizes. -/
theorem admissibility_pruning (policy : FsPath → Bool) (rootPath : FsPath)
    (t : FsTree) (dpath : FsPath) (dt : FsTree)
    (classify : FsPath → ℕ → Option CompressionDecision)
    (algorithmOf : ℕ → String) (stats : CompressionStats)
    (hnn : NodupNames t) (hmem : (dpath, dt) ∈ dirsOf rootPath t)
    (hdp : policy dpath = true) :
    (iterFiles policy rootPath t).1.filter (fun f => isUnder dpath f.1) = [] ∧
    (iterFiles policy rootPath t).2.filter (fun f => isUnder dpath f.1) =
      subtreeFiles dpath dt ∧
    (((iterFiles policy rootPath t).2.filter
      (fun f => isUnder dpath f.1)).map (fun f => f.2)).sum =
      ((subtreeFiles dpath dt).map (fun f => f.2)).sum ∧
    ∀ cand ∈ (planScan classify algorithmOf (iterFiles policy rootPath t).1
      stats).1, isUnder dpath cand.1 = false := by
  have hmain :
      (iterFiles policy rootPath t).1.filter
        (fun f => isUnder dpath f.1) = [] ∧
      (iterFiles policy rootPath t).2.filter
        (fun f => isUnder dpath f.1) = subtreeFiles dpath dt := by
    unfold iterFiles
    by_cases hroot : policy rootPath
    · rw [if_pos hroot]
      exact ⟨rfl, subtree_filter_eq rootPath t dpath dt hnn hmem⟩
    · rw [if_neg hroot]
      have hne : dpath ≠ rootPath := fun h => hroot (h ▸ hdp)
      exact walkAux_filter policy rootPath t dpath dt hdp hne hnn hmem
  obtain ⟨h1, h2⟩ := hmain
  refine ⟨h1, h2, by rw [h2], ?_⟩
  intro cand hcand
  obtain ⟨f, hf, hfx⟩ := planScan_subset classify algorithmOf _ stats cand hcand
  have hnot := List.filter_eq_nil_iff.mp h1 f hf
  rw [hfx]
  exact Bool.eq_false_iff.mpr hnot

/-- C6, witness. -/
theorem admissibility_pruning_witness :
    NodupNames (.node [("a.txt", 10)]
      [("skipme", .node [("x.bin", 100)] [])]) ∧
    ((["root", "skipme"] : FsPath), FsTree.node [("x.bin", 100)] []) ∈
      dirsOf ["root"]
        (.node [("a.txt", 10)] [("skipme", .node [("x.bin", 100)] [])]) ∧
    (fun p => decide (p = ["root", "skipme"])) ["root", "skipme"] = true ∧
    (iterFiles (fun p => decide (p = ["root", "skipme"])) ["root"]
        (.node [("a.txt", 10)]
          [("skipme", .node [("x.bin", 100)] [])])).1.filter
      (fun f => isUnder ["root", "skipme"] f.1) = [] ∧
    (iterFiles (fun p => decide (p = ["root", "skipme"])) ["root"]
        (.node [("a.txt", 10)]
          [("skipme", .node [("x.bin", 100)] [])])).2.filter
      (fun f => isUnder ["root", "skipme"] f.1) =
      subtreeFiles ["root", "skipme"] (.node [("x.bin", 100)] []) ∧
    ∀ cand ∈ (planScan (fun _ _ => some ⟨true, "ok", none⟩)
        (fun _ => "xpress4k")
        (iterFiles (fun p => decide (p = ["root", "skipme"])) ["root"]
          (.node [("a.txt", 10)]
            [("skipme", .node [("x.bin", 100)] [])])).1 {}).1,
      isUnder ["root", "skipme"] cand.1 = false := by
  have hnn : NodupNames (.node [("a.txt", 10)]
      [("skipme", .node [("x.bin", 100)] [])]) := by
    refine NodupNames.node _ _ (by simp) ?_
    intro c hc
    rw [List.mem_singleton] at hc
    rw [hc]
    exact NodupNames.node _ _ (by simp)
      (fun c2 hc2 => absurd hc2 (List.not_mem_nil c2))
  have hmem : ((["root", "skipme"] : FsPath), FsTree.node [("x.bin", 100)] []) ∈
      dirsOf ["root"]
        (.node [("a.txt", 10)] [("skipme", .node [("x.bin", 100)] [])]) := by
    simp [dirsOf, dirsOfChildren]
  obtain ⟨h1, h2, _, h4⟩ := admissibility_pruning
    (fun p => decide (p = ["root", "skipme"])) ["root"]
    (.node [("a.txt", 10)] [("skipme", .node [("x.bin", 100)] [])])
    ["root", "skipme"] (.node [("x.bin", 100)] [])
    (fun _ _ => some ⟨true, "ok", none⟩) (fun _ => "xpress4k") {}
    hnn hmem (by simp)
  exact ⟨hnn, hmem, by simp, h1, h2, h4⟩

/-- C10.  With an empty candidate list or a non-positive savings threshold
the entropy-filter stage returns the candidates unchanged without touching
the run stats, independently of every sampling input (so no directory is
sampled and no record of any kind is produced). -/
theorem filter_noop_on_trivial_inputs (rootSample : Option ℚ × ℕ × ℕ)
    (evalDir : FsPath → Except String (Option DirectorySkipRecord))
    (workerCount : ℕ) (candidates : List (FsPath × ℕ × String))
    (baseDir : FsPath) (minSavingsPercent : ℚ) (stats : CompressionStats)
    (h : candidates = [] ∨ minSavingsPercent ≤ 0) :
    filterHighEntropyDirectories rootSample evalDir workerCount candidates
      baseDir minSavingsPercent stats = .ok (candidates, stats) := by
  unfold filterHighEntropyDirectories
  rw [if_pos h]

/-- C10, witness. -/
theorem filter_noop_on_trivial_inputs_witness :
    filterHighEntropyDirectories (some 8, 3, 4096) (fun _ => .ok none) 4
      [(["base", "x.bin"], 100, "xpress4k")] ["base"] 0 {} =
      .ok ([(["base", "x.bin"], 100, "xpress4k")], {}) :=
  filter_noop_on_trivial_inputs (some 8, 3, 4096) (fun _ => .ok none) 4
    [(["base", "x.bin"], 100, "xpress4k")] ["base"] 0 {} (Or.inr le_rfl)

end TrashCompactor
